import Mathlib

/- Verification of the djacarta editor core.

   The repository is a Python curses editor in two prototype variants
   (src/djacarta.py and src/etc/djacarta.py).  Lines are modelled as
   `List Char`, the document as `List (List Char)` and Python integers
   as `Int`.  Where the two variants differ, the extended variant
   (src/etc/djacarta.py) is the one embedded; differences are noted at
   the definition concerned. -/

namespace Djacarta

/-! ## Python list/string primitives used by the editor -/

/-- Python indexing `l[i]` with a default: a negative index counts from
    the end.  Out-of-range access raises IndexError in Python; it returns
    `d` here, and every claim keeps the indices used by the code in
    range. -/
def pygetD (l : List α) (i : Int) (d : α) : α :=
  if 0 ≤ i then l.getD i.toNat d
  else l.getD (l.length + i).toNat ((fun _ => d) (i + l.length))

/-- Python slice `l[:i]`: a negative bound counts from the end
    (`l[:-1]` drops the last element). -/
def pySliceTo (l : List α) (i : Int) : List α :=
  if i < 0 then l.take (l.length + i).toNat else l.take i.toNat

/-- Python slice `l[i:]`: a negative bound counts from the end. -/
def pySliceFrom (l : List α) (i : Int) : List α :=
  if i < 0 then l.drop (l.length + i).toNat else l.drop i.toNat

/-- Python `l[-1] = a` (raises on an empty list; all call sites in the
    editor pass a non-empty list). -/
def pySetLast (l : List α) (a : α) : List α :=
  l.dropLast ++ [a]

/-- Python `l[0] = a` (same remark as `pySetLast`). -/
def pySetHead (l : List α) (a : α) : List α :=
  match l with
  | [] => [a]
  | _ :: rest => a :: rest

/-- Python `l[i] = a` for the in-range non-negative indices the editor
    uses. -/
def pySet (l : List α) (i : Int) (a : α) : List α :=
  l.take i.toNat ++ [a] ++ l.drop (i.toNat + 1)

/-- Python `del l[i]` for the in-range non-negative indices the editor
    uses. -/
def pyDelAt (l : List α) (i : Int) : List α :=
  l.take i.toNat ++ l.drop (i.toNat + 1)

/-! ## Coordinate mapper (bufpos2vispos / vispos2bufpos)

    Identical in both variants (djacarta.py lines 105-136,
    etc/djacarta.py lines 128-159). -/

/-- The `while i < offs` loop of `bufpos2vispos`: walk `n` characters,
    adding `tabsz` per tab and 1 per other character.  (The `[]` case is
    unreachable at call sites because the wrapper clamps `offs`.) -/
def b2vLoop (tabsz : Int) : List Char → Nat → Int
  | _, 0 => 0
  | [], _ + 1 => 0
  | c :: rest, n + 1 => (if c = '\t' then tabsz else 1) + b2vLoop tabsz rest n

/-- `bufpos2vispos(text, tabsz, offs)` from the source: if
    `offs > len(text)` it returns `len(text)` (the literal length), else
    it walks the first `offs` characters.  A negative `offs` runs the
    loop zero times, as in Python. -/
def bufpos2vispos (text : List Char) (tabsz : Int) (offs : Int) : Int :=
  if offs > (text.length : Int) then (text.length : Int)
  else b2vLoop tabsz text offs.toNat

/-- One run of the `while i < offs` loop of `vispos2bufpos`, with `i` the
    loop counter and the second argument the number of iterations left.
    Mirrors the three-way branch of the source: positions with
    `i + tabsz < len(text)` contribute 0, positions where
    `text[i:i+tabsz]` is `tabsz` spaces contribute `tabsz - 1`, all
    others contribute 1. -/
def v2bLoop (text : List Char) (tabsz : Int) (i : Nat) : Nat → Int
  | 0 => 0
  | n + 1 =>
    (if (i : Int) + tabsz < (text.length : Int) then 0
     else if (text.drop i).take tabsz.toNat = List.replicate tabsz.toNat ' ' then tabsz - 1
     else 1) + v2bLoop text tabsz (i + 1) n

/-- `vispos2bufpos(text, tabsz, offs)` from the source (the function the
    source comments call "the inverse of the one above"). -/
def vispos2bufpos (text : List Char) (tabsz : Int) (offs : Int) : Int :=
  if offs > (text.length : Int) then (text.length : Int)
  else v2bLoop text tabsz 0 offs.toNat

/-- Modelled from the spec: the reference literal→visual walk of
    §4.1 ("walks the line's characters up to literalOffset, accumulating
    1 per non-tab character and tabWidth per tab character", clamping
    the offset to the line length).  Used only to compare
    `bufpos2vispos` against the spec's words. -/
def literalToVisualSpec (text : List Char) (tabsz : Int) (offs : Nat) : Int :=
  walk text (min offs text.length)
where
  /-- accumulate over the first `n` characters -/
  walk : List Char → Nat → Int
    | _, 0 => 0
    | [], _ + 1 => 0
    | c :: rest, n + 1 => (if c = '\t' then tabsz else 1) + walk rest n

/-! ## Editor state -/

/-- The fields of the Python `State` object that the buffer/cursor
    engine reads or writes (the curses window and mode flags are
    interface state handled by the out-of-scope event loop). -/
structure EdState where
  buffer : List (List Char)
  openedfile : List Char
  cmdbuffer : List Char
  key : Int
  bufcur_x : Int
  bufcur_y : Int
  bufofs_x : Int
  bufofs_y : Int
  tabsz : Int
  win_w : Int
  win_h : Int
deriving DecidableEq, Repr

/-- The current line `s.buffer[s.bufcur_y]`. -/
def curLine (s : EdState) : List Char :=
  pygetD s.buffer s.bufcur_y []

inductive Dir
  | left | right | up | down
deriving DecidableEq

/-- `move_cursor(s, wh)` of the extended variant (etc/djacarta.py lines
    161-197).  The base variant has the same cursor arithmetic and no
    viewport adjustment.  The local `newvis` of the source is dead and
    omitted. -/
def move_cursor (s : EdState) (wh : Dir) : EdState :=
  let oldvis := bufpos2vispos (curLine s) s.tabsz s.bufcur_x
  match wh with
  | .left =>
    let s1 := if s.bufcur_x > 0 then { s with bufcur_x := s.bufcur_x - 1 } else s
    if bufpos2vispos (curLine s1) s1.tabsz s1.bufcur_x < s1.bufofs_x then
      { s1 with bufofs_x := bufpos2vispos (curLine s1) s1.tabsz s1.bufcur_x }
    else s1
  | .right =>
    let s1 :=
      if s.bufcur_x < ((curLine s).length : Int) then { s with bufcur_x := s.bufcur_x + 1 }
      else s
    if bufpos2vispos (curLine s1) s1.tabsz s1.bufcur_x ≥ s1.bufofs_x + s1.win_w then
      { s1 with bufofs_x := bufpos2vispos (curLine s1) s1.tabsz s1.bufcur_x }
    else s1
  | .down =>
    let s1 :=
      if s.bufcur_y + 1 ≥ (s.buffer.length : Int) then s
      else
        { s with bufcur_y := s.bufcur_y + 1,
                 bufcur_x := vispos2bufpos (pygetD s.buffer (s.bufcur_y + 1) []) s.tabsz oldvis }
    if s1.bufcur_y ≥ s1.bufofs_y + s1.win_h - 1 then { s1 with bufofs_y := s1.bufofs_y + 1 }
    else s1
  | .up =>
    let s1 :=
      if s.bufcur_y ≤ 0 then s
      else
        { s with bufcur_y := s.bufcur_y - 1,
                 bufcur_x := vispos2bufpos (pygetD s.buffer (s.bufcur_y - 1) []) s.tabsz oldvis }
    if s1.bufcur_y < s1.bufofs_y then { s1 with bufofs_y := s1.bufofs_y - 1 }
    else s1

/-- A convenient fully-populated state for concrete evaluations. -/
def mkState (buffer : List (List Char)) (x y : Int) (tabsz : Int) : EdState :=
  { buffer := buffer, openedfile := [], cmdbuffer := [], key := 0, bufcur_x := x,
    bufcur_y := y, bufofs_x := 0, bufofs_y := 0, tabsz := tabsz, win_w := 80, win_h := 24 }

/-! ## Edit engine (etc/djacarta.py mainloop and ins_chr) -/

/-- `chr(key)` for a valid Unicode scalar value.  Python's `chr` also
    accepts the surrogate range 0xD800-0xDFFF, which `Char` cannot
    represent; `do_cmd` treats those as a raise, and no claim exercises
    them. -/
def pyChr (key : Int) : Char := Char.ofNat key.toNat

/-- `ins_chr(s)` (etc/djacarta.py lines 288-298; identical in the base
    variant). -/
def ins_chr (s : EdState) : EdState :=
  let s1 :=
    if s.bufcur_x = ((curLine s).length : Int) then
      { s with buffer := pySet s.buffer s.bufcur_y (curLine s ++ [pyChr s.key]) }
    else
      let lhs := pySliceTo (curLine s) s.bufcur_x
      let rhs := pySliceFrom (curLine s) s.bufcur_x
      { s with buffer := pySet s.buffer s.bufcur_y (lhs ++ [pyChr s.key] ++ rhs) }
  let s2 := { s1 with bufcur_x := s1.bufcur_x + 1 }
  if s2.bufcur_x - s2.bufofs_x > 79 then { s2 with bufofs_x := s2.bufofs_x + 1 } else s2

/-- The Enter handler outside command mode (etc/djacarta.py mainloop
    lines 405-419).  The base variant differs: it never splits the
    current line, inserting an empty line after it in every case. -/
def do_enter (s : EdState) : EdState :=
  let s1 :=
    if s.bufcur_y < (s.buffer.length : Int) - 1 then
      if s.bufcur_x < ((curLine s).length : Int) then
        let curline := curLine s
        let lhs := pySetLast (pySliceTo s.buffer (s.bufcur_y + 1))
                     (pySliceTo curline s.bufcur_x)
        let rhs := pySetHead (pySliceFrom s.buffer s.bufcur_y)
                     (pySliceFrom curline s.bufcur_x)
        { s with buffer := lhs ++ rhs }
      else
        -- s.buffer.insert(s.bufcur_y + 1, '')
        { s with buffer := pySliceTo s.buffer (s.bufcur_y + 1) ++ [[]] ++
                             pySliceFrom s.buffer (s.bufcur_y + 1) }
    else { s with buffer := s.buffer ++ [[]] }
  { s1 with bufcur_y := s1.bufcur_y + 1, bufcur_x := 0 }

/-- The backspace handler outside command mode (etc/djacarta.py mainloop
    lines 443-475).  The base variant differs inside the `bufcur_x == 0`
    branch: it computes `newx` from the length of the list slice
    `buffer[:y-1]` and rebuilds the document from `buffer[:y-1]`. -/
def do_backspace (s : EdState) : EdState :=
  if s.buffer = [[]] ∨ (s.bufcur_x = 0 ∧ s.bufcur_y = 0) then s
  else if curLine s = [] then
    let buffer' :=
      if s.bufcur_y < (s.buffer.length : Int) - 1 then
        pySliceTo s.buffer s.bufcur_y ++ pySliceFrom s.buffer (s.bufcur_y + 1)
      else pySliceTo s.buffer (-1)
    { s with buffer := buffer', bufcur_y := s.bufcur_y - 1,
             bufcur_x := ((pygetD buffer' (s.bufcur_y - 1) []).length : Int) }
  else
    let newx := s.bufcur_x - 1
    if s.bufcur_x = 0 then
      let newx' := ((pygetD s.buffer (s.bufcur_y - 1) []).length : Int)
      let line := pygetD s.buffer (s.bufcur_y - 1) [] ++ curLine s
      let lhs := pySliceTo s.buffer s.bufcur_y
      let lhs := if lhs = [] then [line] else pySetLast lhs line
      let rhs := pySliceFrom s.buffer (s.bufcur_y + 1)
      { s with buffer := lhs ++ rhs, bufcur_y := s.bufcur_y - 1, bufcur_x := newx' }
    else if s.bufcur_x < ((curLine s).length : Int) then
      let line' := pySliceTo (curLine s) (s.bufcur_x - 1) ++ pySliceFrom (curLine s) s.bufcur_x
      { s with buffer := pySet s.buffer s.bufcur_y line', bufcur_x := newx }
    else
      { s with buffer := pySet s.buffer s.bufcur_y (pySliceTo (curLine s) (-1)),
               bufcur_x := newx }

/-- The Del-key handler (etc/djacarta.py mainloop lines 424-438; the
    base variant has no Del handler).  The local `buflen -= 1` of the
    source is dead and omitted. -/
def do_del (s : EdState) : EdState :=
  let linelen : Int := (curLine s).length
  let buflen : Int := s.buffer.length
  if s.buffer = [[]] ∨ (s.bufcur_x ≥ linelen ∧ s.bufcur_y ≥ buflen - 1) then s
  else if s.bufcur_x ≥ linelen ∧ s.bufcur_y + 1 < buflen then
    let b1 := pySet s.buffer s.bufcur_y (curLine s ++ pygetD s.buffer (s.bufcur_y + 1) [])
    { s with buffer := pyDelAt b1 (s.bufcur_y + 1) }
  else
    let line' := pySliceTo (curLine s) s.bufcur_x ++ pySliceFrom (curLine s) (s.bufcur_x + 1)
    { s with buffer := pySet s.buffer s.bufcur_y line' }

/-! ## Python integer parsing (`int(x, 16)` and `int(x, 0)`)

    `none` models the ValueError raise.  CPython additionally accepts
    single underscores between digits (3.6+); the editor's claims do not
    exercise underscores, so they are not modelled. -/

def pyWhitespace (c : Char) : Bool :=
  c = ' ' ∨ c = '\t' ∨ c = '\n' ∨ c = '\x0b' ∨ c = '\x0c' ∨ c = '\r'

def decDigitVal? (c : Char) : Option Nat :=
  if '0' ≤ c ∧ c ≤ '9' then some (c.toNat - '0'.toNat) else none

def hexDigitVal? (c : Char) : Option Nat :=
  if '0' ≤ c ∧ c ≤ '9' then some (c.toNat - '0'.toNat)
  else if 'a' ≤ c ∧ c ≤ 'f' then some (c.toNat - 'a'.toNat + 10)
  else if 'A' ≤ c ∧ c ≤ 'F' then some (c.toNat - 'A'.toNat + 10)
  else none

def octDigitVal? (c : Char) : Option Nat :=
  if '0' ≤ c ∧ c ≤ '7' then some (c.toNat - '0'.toNat) else none

def binDigitVal? (c : Char) : Option Nat :=
  if c = '0' then some 0 else if c = '1' then some 1 else none

def digitsValGo (base : Nat) (digval : Char → Option Nat) : List Char → Nat → Option Nat
  | [], acc => some acc
  | c :: rest, acc =>
    match digval c with
    | none => none
    | some v => digitsValGo base digval rest (acc * base + v)

/-- Value of a non-empty digit string, `none` if empty or if any
    character is not a digit of the base. -/
def digitsVal? (base : Nat) (digval : Char → Option Nat) (l : List Char) : Option Nat :=
  if l = [] then none else digitsValGo base digval l 0

/-- Strip whitespace from both ends and split off an optional sign. -/
def pyIntPre (l : List Char) : Int × List Char :=
  let l := ((l.dropWhile pyWhitespace).reverse.dropWhile pyWhitespace).reverse
  match l with
  | '+' :: rest => (1, rest)
  | '-' :: rest => (-1, rest)
  | _ => (1, l)

/-- Python `int(x, 16)`: optional whitespace and sign, optional
    `0x`/`0X` prefix, then at least one hex digit. -/
def pyIntHex? (l : List Char) : Option Int :=
  let (sign, l) := pyIntPre l
  let l := match l with
    | '0' :: 'x' :: rest => rest
    | '0' :: 'X' :: rest => rest
    | _ => l
  match digitsVal? 16 hexDigitVal? l with
  | none => none
  | some v => some (sign * v)

/-- Python `int(x, 0)`: integer-literal syntax — optional whitespace and
    sign, a `0x`/`0o`/`0b` prefix selecting the base, else decimal with
    no leading zeros (a string of zeros denotes 0). -/
def pyInt0? (l : List Char) : Option Int :=
  let (sign, l) := pyIntPre l
  match l with
  | '0' :: 'x' :: rest => (digitsVal? 16 hexDigitVal? rest).map (fun v => sign * v)
  | '0' :: 'X' :: rest => (digitsVal? 16 hexDigitVal? rest).map (fun v => sign * v)
  | '0' :: 'o' :: rest => (digitsVal? 8 octDigitVal? rest).map (fun v => sign * v)
  | '0' :: 'O' :: rest => (digitsVal? 8 octDigitVal? rest).map (fun v => sign * v)
  | '0' :: 'b' :: rest => (digitsVal? 2 binDigitVal? rest).map (fun v => sign * v)
  | '0' :: 'B' :: rest => (digitsVal? 2 binDigitVal? rest).map (fun v => sign * v)
  | _ =>
    match digitsVal? 10 decDigitVal? l with
    | none => none
    | some v =>
      match l with
      | '0' :: _ => if v = 0 then some 0 else none
      | _ => some (sign * v)

/-! ## Command dispatcher (`do_cmd`, etc/djacarta.py lines 300-384) -/

/-- `do_cmd(s)` of the extended variant.  `none` models an uncaught
    Python exception escaping `do_cmd` (ValueError from `int`, or a
    `chr` code point `Char` cannot represent); `some (s', quit)` is a
    normal return with `quit` the `return 1` flag.  File I/O is an
    external collaborator: `fileLines` is the line list that
    `open(path).read().split('\n')` would produce for the `o` command,
    path expansion is not modelled (the raw argument is stored), and
    file writes (`t`, `s`, `ss`) change no modelled state except
    `openedfile`. -/
def do_cmd (s : EdState) (fileLines : List (List Char)) : Option (EdState × Bool) :=
  let cmd := s.cmdbuffer
  if ['u','-'].isPrefixOf cmd then
    match pyIntHex? (pySliceFrom cmd 2) with
    | none => none
    | some cp =>
      -- the source's `if cp != None` is always true after a successful parse
      if 0 ≤ cp ∧ (cp < 0xD800 ∨ (0xE000 ≤ cp ∧ cp < 0x110000)) then
        some (ins_chr { s with key := cp }, false)
      else none
  else if cmd = ['h'] then
    some ({ s with bufcur_x := 0, bufofs_x := 0 }, false)
  else if cmd = ['e'] then
    let s1 := { s with bufcur_x := ((curLine s).length : Int) }
    some ({ s1 with bufofs_x := bufpos2vispos (curLine s1) s1.tabsz s1.bufcur_x }, false)
  else if cmd = ['v','a'] then
    some ({ s with bufofs_y := s.bufcur_y }, false)
  else if cmd = ['h','a'] then
    some ({ s with bufofs_x := bufpos2vispos (curLine s) s.tabsz s.bufcur_x }, false)
  else if cmd = ['p','u'] then
    if s.bufcur_y - (s.win_h - 1) ≥ 0 then
      some ({ s with bufofs_y := s.bufofs_y - (s.win_h - 1),
                     bufcur_y := s.bufcur_y - (s.win_h - 1) }, false)
    else some ({ s with bufofs_y := 0, bufcur_y := 0 }, false)
  else if cmd = ['p','d'] then
    let bufferlen : Int := s.buffer.length
    if s.bufcur_y + s.win_h - 1 ≤ bufferlen then
      some ({ s with bufofs_y := s.bufofs_y + (s.win_h - 1),
                     bufcur_y := s.bufcur_y + (s.win_h - 1) }, false)
    else some ({ s with bufofs_y := bufferlen - 1, bufcur_y := bufferlen - 1 }, false)
  else if ['g',' '].isPrefixOf cmd then
    match pyInt0? (pySliceFrom cmd 2) with
    | none => none
    | some num =>
      if num < (s.buffer.length : Int) then
        some ({ s with bufcur_y := num, bufofs_y := num }, false)
      else some (s, false)
  else if ['o',' '].isPrefixOf cmd then
    some ({ s with openedfile := pySliceFrom cmd 2, buffer := fileLines,
                   bufofs_x := 0, bufofs_y := 0, bufcur_x := 0, bufcur_y := 0 }, false)
  else if ['t',' '].isPrefixOf cmd then
    some (s, false)
  else if ['s',' '].isPrefixOf cmd then
    some ({ s with openedfile := pySliceFrom cmd 2 }, false)
  else if cmd = ['s','s'] ∧ s.openedfile ≠ [] then
    some (s, false)
  else if ['t','a','b','s','z',' '].isPrefixOf cmd then
    match pyInt0? (pySliceFrom cmd 6) with
    | none => none
    | some size =>
      if size > 0 ∧ size < 256 then some ({ s with tabsz := size }, false)
      else some (s, false)
  else if cmd = ['c','l','s'] then
    some ({ s with openedfile := [], buffer := [[]],
                   bufofs_x := 0, bufofs_y := 0, bufcur_x := 0, bufcur_y := 0 }, false)
  else if cmd = ['q'] then some (s, true)
  else some (s, false)

/-! ## Lemmas about the literal→visual walk -/

theorem b2vLoop_nonneg (tabsz : Int) (ht : 1 ≤ tabsz) :
    ∀ (text : List Char) (n : Nat), 0 ≤ b2vLoop tabsz text n := by
  intro text
  induction text with
  | nil => intro n; cases n <;> simp [b2vLoop]
  | cons c rest ih =>
    intro n
    cases n with
    | zero => simp [b2vLoop]
    | succ m =>
      have h := ih m
      by_cases hc : c = '\t' <;> simp [b2vLoop, hc] <;> omega

theorem b2vLoop_mono (tabsz : Int) (ht : 1 ≤ tabsz) :
    ∀ (text : List Char) (n m : Nat), n ≤ m → b2vLoop tabsz text n ≤ b2vLoop tabsz text m := by
  intro text
  induction text with
  | nil =>
    intro n m _
    cases n <;> cases m <;> simp [b2vLoop]
  | cons c rest ih =>
    intro n m hnm
    cases n with
    | zero =>
      cases m with
      | zero => simp
      | succ m' =>
        have h1 := b2vLoop_nonneg tabsz ht rest m'
        by_cases hc : c = '\t' <;> simp [b2vLoop, hc] <;> omega
    | succ n' =>
      cases m with
      | zero => omega
      | succ m' =>
        have h := ih n' m' (by omega)
        by_cases hc : c = '\t' <;> simp [b2vLoop, hc] <;> omega

theorem b2vLoop_tab_step (tabsz : Int) :
    ∀ (text : List Char) (o : Nat), text[o]? = some '\t' →
      b2vLoop tabsz text (o + 1) = b2vLoop tabsz text o + tabsz := by
  intro text
  induction text with
  | nil => intro o h; simp at h
  | cons c rest ih =>
    intro o h
    cases o with
    | zero =>
      simp at h
      simp [b2vLoop, h]
    | succ o' =>
      simp at h
      have := ih o' h
      by_cases hc : c = '\t' <;> simp [b2vLoop, hc] <;> omega

/-! ## Bridging lemmas: Python primitives at natural indices -/

theorem pySliceTo_natCast (l : List α) (n : Nat) : pySliceTo l (n : Int) = l.take n := by
  simp [pySliceTo]

theorem pySliceFrom_natCast (l : List α) (n : Nat) : pySliceFrom l (n : Int) = l.drop n := by
  simp [pySliceFrom]

theorem pygetD_natCast (l : List α) (n : Nat) (d : α) : pygetD l (n : Int) d = l.getD n d := by
  simp [pygetD]

theorem pySliceTo_neg_one (l : List α) : pySliceTo l (-1) = l.dropLast := by
  simp only [pySliceTo, if_pos (by omega : (-1 : Int) < 0), List.dropLast_eq_take]
  congr 1
  omega

theorem natCast_add_one_toInt (n : Nat) : ((n : Int) + 1) = ((n + 1 : Nat) : Int) := by
  push_cast; ring

theorem natCast_sub_one_toInt (n : Nat) (h : 1 ≤ n) :
    ((n : Int) - 1) = ((n - 1 : Nat) : Int) := by
  omega

/-- When the offset is in bounds, `bufpos2vispos` is the walk. -/
theorem bufpos2vispos_of_le (text : List Char) (tabsz : Int) (o : Nat) (h : o ≤ text.length) :
    bufpos2vispos text tabsz o = b2vLoop tabsz text o := by
  unfold bufpos2vispos
  have hno : ¬ ((text.length : Int) < (o : Nat)) := by exact_mod_cast not_lt.mpr h
  simp [hno]

/-! ## Claim C1 -/

/-- C1: the claim states that a vertical move preserves the visual
    column; in particular, with tab width 4, moving down from line
    `"\tabc"` at literal offset 1 (visual column 4) onto line
    `"abcdefgh"` should land at literal offset 4.  The code disagrees:
    `vispos2bufpos` returns literal offset 0 there (visual column 0),
    because its `i + tabsz < textlen` branch skips almost every
    position.  This theorem evaluates `move_cursor` at that failing
    input. -/
theorem C1_move_down_loses_visual_column :
    (move_cursor (mkState [['\t','a','b','c'],
                           ['a','b','c','d','e','f','g','h']] 1 0 4) .down).bufcur_y = 1 ∧
    (move_cursor (mkState [['\t','a','b','c'],
                           ['a','b','c','d','e','f','g','h']] 1 0 4) .down).bufcur_x = 0 ∧
    bufpos2vispos ['\t','a','b','c'] 4 1 = 4 ∧
    bufpos2vispos ['a','b','c','d','e','f','g','h'] 4 0 = 0 ∧
    (0 : Int) ≠ 4 := by
  refine ⟨by decide, by decide, by decide, by decide, by decide⟩

/-! ## Claim C2 -/

/-- C2: the claim states the round-trip
    `vispos2bufpos (L, t, bufpos2vispos (L, t, o)) = o` for offsets not
    inside a tab expansion.  It fails already on a tab-free line: on
    `"abcdefgh"` with tab width 4 and offset 4 the round trip returns 0.
    This theorem evaluates the code at that failing input. -/
theorem C2_roundtrip_fails :
    bufpos2vispos ['a','b','c','d','e','f','g','h'] 4 4 = 4 ∧
    vispos2bufpos ['a','b','c','d','e','f','g','h'] 4
      (bufpos2vispos ['a','b','c','d','e','f','g','h'] 4 4) = 0 ∧
    (0 : Int) ≠ 4 := by
  refine ⟨by decide, by decide, by decide⟩

/-! ## Claim C3 -/

/-- C3 counterexample: the claim says that for `literalOffset > len(line)`
    `bufpos2vispos` returns the visual width of the whole line (6 for
    `"\tfoo"` at tab width 3) and is monotonically non-decreasing.  The
    code returns the literal length 4 instead, which is also below the
    value 6 taken at offset 4, refuting monotonicity past the end. -/
theorem C3_clamp_returns_literal_length :
    bufpos2vispos ['\t','f','o','o'] 3 5 = 4 ∧
    bufpos2vispos ['\t','f','o','o'] 3 4 = 6 ∧
    (4 : Int) ≠ 6 ∧ ¬ (6 : Int) ≤ 4 := by
  refine ⟨by decide, by decide, by decide, by decide⟩

/-- C3 as amended: `bufpos2vispos` agrees with the spec's reference walk
    on in-bounds offsets (`offs ≤ len`), returns the literal length
    `len(line)` (not the visual width) for offsets past the end, is
    monotonically non-decreasing on in-bounds offsets for tab width
    ≥ 1, gives every tab exactly `tabsz` visual columns, and satisfies
    the `"\tfoo"` examples. -/
theorem C3_amended :
    (∀ (text : List Char) (tabsz : Int) (o : Nat), o ≤ text.length →
        bufpos2vispos text tabsz o = literalToVisualSpec text tabsz o) ∧
    (∀ (text : List Char) (tabsz : Int) (o : Nat), text.length < o →
        bufpos2vispos text tabsz o = text.length) ∧
    (∀ (text : List Char) (tabsz : Int) (o o' : Nat), 1 ≤ tabsz → o ≤ o' → o' ≤ text.length →
        bufpos2vispos text tabsz o ≤ bufpos2vispos text tabsz o') ∧
    (∀ (text : List Char) (tabsz : Int) (o : Nat), text[o]? = some '\t' →
        bufpos2vispos text tabsz (o + 1) = bufpos2vispos text tabsz o + tabsz) ∧
    bufpos2vispos ['\t','f','o','o'] 3 1 = 3 ∧
    bufpos2vispos ['\t','f','o','o'] 3 4 = 6 := by
  have hwalk : ∀ (tabsz : Int) (text : List Char) (n : Nat),
      literalToVisualSpec.walk tabsz text n = b2vLoop tabsz text n := by
    intro tabsz text
    induction text with
    | nil => intro n; cases n <;> simp [literalToVisualSpec.walk, b2vLoop]
    | cons c rest ih =>
      intro n
      cases n with
      | zero => simp [literalToVisualSpec.walk, b2vLoop]
      | succ m => simp [literalToVisualSpec.walk, b2vLoop, ih m]
  refine ⟨?_, ?_, ?_, ?_, by decide, by decide⟩
  · intro text tabsz o ho
    have hno : ¬ ((text.length : Int) < (o : Int)) := by exact_mod_cast not_lt.mpr ho
    simp [bufpos2vispos, literalToVisualSpec, hno, hwalk, Nat.min_eq_left ho]
  · intro text tabsz o ho
    have hyes : (text.length : Int) < (o : Int) := by exact_mod_cast ho
    simp [bufpos2vispos, hyes]
  · intro text tabsz o o' ht ho ho'
    have h1 : ¬ ((text.length : Int) < (o : Int)) := by
      have : o ≤ text.length := le_trans ho ho'
      exact_mod_cast not_lt.mpr this
    have h2 : ¬ ((text.length : Int) < (o' : Int)) := by exact_mod_cast not_lt.mpr ho'
    simp only [bufpos2vispos, gt_iff_lt, h1, h2, if_false, Int.toNat_natCast]
    exact b2vLoop_mono tabsz ht text o o' ho
  · intro text tabsz o hget
    have holt : o < text.length := by
      by_contra hc
      rw [List.getElem?_eq_none (by omega)] at hget
      exact Option.noConfusion hget
    rw [show ((o : Int) + 1) = ((o + 1 : Nat) : Int) by push_cast; ring]
    rw [bufpos2vispos_of_le text tabsz (o + 1) (by omega),
        bufpos2vispos_of_le text tabsz o (by omega)]
    exact b2vLoop_tab_step tabsz text o hget

/-- C3 witness: the amended theorem applied at concrete inputs. -/
theorem C3_amended_witness :
    bufpos2vispos ['a','\t','b'] 3 2 = literalToVisualSpec ['a','\t','b'] 3 2 ∧
    bufpos2vispos ['a','\t','b'] 3 7 = 3 ∧
    bufpos2vispos ['a','\t','b'] 3 1 ≤ bufpos2vispos ['a','\t','b'] 3 3 ∧
    bufpos2vispos ['a','\t','b'] 3 2 = bufpos2vispos ['a','\t','b'] 3 1 + 3 :=
  ⟨C3_amended.1 ['a','\t','b'] 3 2 (by decide),
   C3_amended.2.1 ['a','\t','b'] 3 7 (by decide),
   C3_amended.2.2.1 ['a','\t','b'] 3 1 3 (by decide) (by decide) (by decide),
   C3_amended.2.2.2.1 ['a','\t','b'] 3 1 (by decide)⟩

/-! ## List helpers for the splice proofs -/

theorem take_append_len (A B : List α) (n : Nat) :
    (A ++ B).take (A.length + n) = A ++ B.take n := by
  induction A with
  | nil => simp
  | cons a A ih =>
    simp only [List.cons_append, List.length_cons]
    rw [show A.length + 1 + n = (A.length + n) + 1 by omega]
    simp [List.take_succ_cons, ih]

theorem drop_append_len (A B : List α) (n : Nat) :
    (A ++ B).drop (A.length + n) = B.drop n := by
  induction A with
  | nil => simp
  | cons a A ih =>
    simp only [List.cons_append, List.length_cons]
    rw [show A.length + 1 + n = (A.length + n) + 1 by omega]
    simp [List.drop_succ_cons, ih]

theorem getD_append_len (A : List α) (c : α) (R : List α) (d : α) :
    (A ++ c :: R).getD A.length d = c := by
  induction A with
  | nil => rfl
  | cons a A ih => simpa [List.getD] using ih

attribute [ext] EdState

/-! ## Claim C4 -/

/-- A run of keystrokes in normal typing mode: `getch` stores the key
    and `ins_chr` runs (mainloop's final branch). -/
def typeKeys (s : EdState) (ks : List Int) : EdState :=
  ks.foldl (fun s k => ins_chr { s with key := k }) s

/-- C4 counterexample: per the claim, Enter at cursor (0, 2) on the
    single-line document `["hello"]` replaces the line by `"he"` and
    inserts `"llo"` after it.  On the last line of the buffer the code
    never splits: it appends an empty line, leaving `"hello"` whole. -/
theorem C4_enter_on_last_line_does_not_split :
    (do_enter (mkState [['h','e','l','l','o']] 2 0 4)).buffer = [['h','e','l','l','o'], []] ∧
    (do_enter (mkState [['h','e','l','l','o']] 2 0 4)).buffer ≠ [['h','e'], ['l','l','o']] :=
  ⟨by decide, by decide⟩

/-- C4 as amended: when the cursor is *not* on the last line, Enter
    performs the claimed split `line[:col]` / `line[col:]` and sets
    `row += 1`, `col = 0`; when the cursor is on the last line the line
    is not split — an empty line is appended (the suffix stays in
    place) — and the cursor still moves to `(row + 1, 0)`.  The claim's
    hello/newline/backspace example holds as stated. -/
theorem C4_amended :
    (∀ s : EdState, 0 ≤ s.bufcur_x → s.bufcur_x ≤ ((curLine s).length : Int) →
       0 ≤ s.bufcur_y → s.bufcur_y < (s.buffer.length : Int) - 1 →
       (do_enter s).buffer =
         pySliceTo s.buffer s.bufcur_y ++
           [pySliceTo (curLine s) s.bufcur_x, pySliceFrom (curLine s) s.bufcur_x] ++
           pySliceFrom s.buffer (s.bufcur_y + 1) ∧
       (do_enter s).bufcur_y = s.bufcur_y + 1 ∧ (do_enter s).bufcur_x = 0) ∧
    (∀ s : EdState, s.bufcur_y = (s.buffer.length : Int) - 1 →
       (do_enter s).buffer = s.buffer ++ [[]] ∧
       (do_enter s).bufcur_y = s.bufcur_y + 1 ∧ (do_enter s).bufcur_x = 0) ∧
    ((do_backspace (do_enter (typeKeys (mkState [[]] 0 0 3)
        [104, 101, 108, 108, 111]))).buffer = [['h','e','l','l','o']] ∧
     (do_backspace (do_enter (typeKeys (mkState [[]] 0 0 3)
        [104, 101, 108, 108, 111]))).bufcur_x = 5 ∧
     (do_backspace (do_enter (typeKeys (mkState [[]] 0 0 3)
        [104, 101, 108, 108, 111]))).bufcur_y = 0) := by
  refine ⟨?_, ?_, by decide, by decide, by decide⟩
  · intro s hx0 hxle hy0 hylt
    obtain ⟨Y, hY⟩ : ∃ n : Nat, s.bufcur_y = (n : Int) := Int.eq_ofNat_of_zero_le hy0
    obtain ⟨X, hX⟩ : ∃ n : Nat, s.bufcur_x = (n : Int) := Int.eq_ofNat_of_zero_le hx0
    rw [hY] at hylt
    rw [hX] at hxle
    have hYb : Y + 1 < s.buffer.length := by omega
    have hXle : X ≤ (curLine s).length := by omega
    unfold do_enter
    rw [hY, hX]
    rw [if_pos (show (Y : Int) < (s.buffer.length : Int) - 1 by omega)]
    by_cases hsplit : X < (curLine s).length
    · rw [if_pos (show (X : Int) < ((curLine s).length : Int) by omega)]
      refine ⟨?_, by simp, by simp⟩
      simp only [natCast_add_one_toInt, pySliceTo_natCast, pySliceFrom_natCast, pySetLast,
        pySetHead]
      have h1 : (s.buffer.take (Y + 1)).dropLast = s.buffer.take Y := by
        rw [List.dropLast_eq_take, List.take_take, List.length_take]
        congr 1
        omega
      rw [h1, List.drop_eq_getElem_cons (show Y < s.buffer.length by omega)]
      simp
    · rw [if_neg (show ¬ ((X : Int) < ((curLine s).length : Int)) by omega)]
      have hX' : X = (curLine s).length := by omega
      refine ⟨?_, by simp, by simp⟩
      simp only [natCast_add_one_toInt, pySliceTo_natCast, pySliceFrom_natCast]
      have hline : curLine s = s.buffer[Y] := by
        rw [curLine, hY, pygetD_natCast]
        exact List.getD_eq_getElem s.buffer [] (show Y < s.buffer.length by omega)
      rw [hX', List.take_length, List.drop_length, hline,
        show s.buffer.take (Y + 1) = s.buffer.take Y ++ [s.buffer[Y]] from
          (List.take_concat_get' s.buffer Y (by omega)).symm]
      simp only [List.append_assoc, List.singleton_append, List.cons_append,
        List.nil_append]
  · intro s hy
    unfold do_enter
    rw [if_neg (show ¬ (s.bufcur_y < (s.buffer.length : Int) - 1) by omega)]
    exact ⟨by simp, by simp, by simp⟩

/-- C4 witness: the amended theorem applied at the concrete document
    `["ab", "c"]`, cursor (0, 1) and at `["ab"]`, cursor (0, 1). -/
theorem C4_amended_witness :
    ((do_enter (mkState [['a','b'],['c']] 1 0 3)).buffer = [['a'], ['b'], ['c']] ∧
     (do_enter (mkState [['a','b'],['c']] 1 0 3)).bufcur_y = 1) ∧
    (do_enter (mkState [['a','b']] 1 0 3)).buffer = [['a','b'], []] := by
  have h1 := C4_amended.1 (mkState [['a','b'],['c']] 1 0 3)
    (by decide) (by decide) (by decide) (by decide)
  have h2 := C4_amended.2.1 (mkState [['a','b']] 1 0 3) (by decide)
  exact ⟨⟨by rw [h1.1]; decide, by rw [h1.2.1]; decide⟩, by rw [h2.1]; decide⟩

/-! ## Claim C5 -/

/-- Backspace on a state whose buffer has the split shape
    `take Y ++ pre :: suf :: drop (Y+1)` with the cursor at the start of
    the `suf` line joins the two middle lines back together, whether
    `suf` is empty (empty-line branch of the handler) or not (the
    `col == 0` join branch). -/
theorem do_backspace_restore (s' : EdState) (b : List (List Char)) (pre suf : List Char)
    (Y : Nat)
    (hbuf : s'.buffer = b.take Y ++ pre :: suf :: b.drop (Y + 1))
    (hy : s'.bufcur_y = (Y : Int) + 1) (hx : s'.bufcur_x = 0)
    (hYb : Y + 1 < b.length) :
    do_backspace s' =
      { s' with
        buffer := b.take Y ++ (pre ++ suf) :: b.drop (Y + 1),
        bufcur_y := (Y : Int), bufcur_x := (pre.length : Int) } := by
  have htakeY : (b.take Y).length = Y := by rw [List.length_take]; omega
  have hBlen : (b.take Y ++ pre :: suf :: b.drop (Y + 1)).length = b.length + 1 := by
    simp only [List.length_append, List.length_cons, List.length_drop]
    omega
  have hgetY1 : (b.take Y ++ pre :: suf :: b.drop (Y + 1)).getD (Y + 1) [] = suf := by
    have h := getD_append_len (b.take Y ++ [pre]) suf (b.drop (Y + 1)) []
    rw [show (b.take Y ++ [pre]) ++ suf :: b.drop (Y + 1)
          = b.take Y ++ pre :: suf :: b.drop (Y + 1) by simp] at h
    rwa [List.length_append, htakeY, List.length_cons, List.length_nil] at h
  have hgetY : (b.take Y ++ pre :: suf :: b.drop (Y + 1)).getD Y [] = pre := by
    have h := getD_append_len (b.take Y) pre (suf :: b.drop (Y + 1)) []
    rwa [htakeY] at h
  have htake : (b.take Y ++ pre :: suf :: b.drop (Y + 1)).take (Y + 1) = b.take Y ++ [pre] := by
    have h := take_append_len (b.take Y) (pre :: suf :: b.drop (Y + 1)) 1
    rw [htakeY] at h
    rw [h]
    rfl
  have hdrop : (b.take Y ++ pre :: suf :: b.drop (Y + 1)).drop (Y + 2) = b.drop (Y + 1) := by
    have h := drop_append_len (b.take Y) (pre :: suf :: b.drop (Y + 1)) 2
    rw [htakeY] at h
    rw [h]
    rfl
  have hget2 : (b.take Y ++ pre :: b.drop (Y + 1)).getD Y [] = pre := by
    have h := getD_append_len (b.take Y) pre (b.drop (Y + 1)) []
    rwa [htakeY] at h
  simp only [do_backspace, curLine, hbuf, hy, hx]
  rw [show ((Y : Int) + 1) = ((Y + 1 : Nat) : Int) from natCast_add_one_toInt Y]
  rw [pygetD_natCast, hgetY1]
  rw [if_neg ?hg]
  case hg =>
    rintro (hb | h2)
    · have hlen := congrArg List.length hb
      rw [hBlen] at hlen
      simp only [List.length_cons, List.length_nil] at hlen
      omega
    · omega
  by_cases hs : suf = []
  · rw [if_pos hs]
    rw [if_pos (show ((Y + 1 : Nat) : Int) <
        ((b.take Y ++ pre :: suf :: b.drop (Y + 1)).length : Int) - 1 by
      rw [hBlen]; push_cast; omega)]
    rw [pySliceTo_natCast, show (((Y + 1 : Nat) : Int) + 1) = ((Y + 2 : Nat) : Int) by
        push_cast; ring,
      pySliceFrom_natCast, htake, hdrop]
    rw [show (b.take Y ++ [pre]) ++ b.drop (Y + 1) = b.take Y ++ pre :: b.drop (Y + 1) by simp]
    rw [show ((Y + 1 : Nat) : Int) - 1 = ((Y : Nat) : Int) by push_cast; ring]
    rw [pygetD_natCast, hget2]
    ext <;> simp [hs]
  · rw [if_neg hs]
    simp only [if_true, eq_self_iff_true, true_and]
    rw [pySliceTo_natCast, htake]
    rw [if_neg (show ¬ (b.take Y ++ [pre] = []) by simp)]
    rw [show ((Y + 1 : Nat) : Int) - 1 = ((Y : Nat) : Int) by push_cast; ring]
    rw [pygetD_natCast, hgetY]
    rw [pySetLast, show (b.take Y ++ [pre]).dropLast = b.take Y by simp]
    rw [show (((Y + 1 : Nat) : Int) + 1) = ((Y + 2 : Nat) : Int) by push_cast; ring,
      pySliceFrom_natCast, hdrop]
    ext <;> simp

theorem length_pySet (l : List α) (i : Int) (a : α) (h0 : 0 ≤ i)
    (hl : i < (l.length : Int)) : (pySet l i a).length = l.length := by
  simp only [pySet, List.length_append, List.length_take, List.length_cons,
    List.length_nil, List.length_drop]
  omega

theorem length_pyDelAt (l : List α) (i : Int) (h0 : 0 ≤ i)
    (hl : i < (l.length : Int)) : (pyDelAt l i).length = l.length - 1 := by
  simp only [pyDelAt, List.length_append, List.length_take, List.length_drop]
  omega

theorem pySet_natCast (l : List α) (n : Nat) (a : α) :
    pySet l (n : Int) a = l.take n ++ a :: l.drop (n + 1) := by
  simp [pySet]

theorem pyDelAt_natCast (l : List α) (n : Nat) :
    pyDelAt l (n : Int) = l.take n ++ l.drop (n + 1) := by
  simp [pyDelAt]

theorem delAt_shape (A : List α) (v : α) (R : List α) (n m : Nat)
    (hn : n = A.length + 1) (hm : m = A.length + 2) :
    (A ++ v :: R).take n ++ (A ++ v :: R).drop m = A ++ v :: R.drop 1 := by
  subst hn hm
  rw [take_append_len A (v :: R) 1, drop_append_len A (v :: R) 2]
  simp

theorem pygetD_pySet_self (l : List α) (i : Int) (a : α) (d : α) (h0 : 0 ≤ i)
    (hl : i < (l.length : Int)) : pygetD (pySet l i a) i d = a := by
  obtain ⟨n, rfl⟩ : ∃ n : Nat, i = (n : Int) := Int.eq_ofNat_of_zero_le h0
  rw [pySet_natCast, pygetD_natCast]
  have h := getD_append_len (l.take n) a (l.drop (n + 1)) d
  rwa [List.length_take, Nat.min_eq_left (by omega : n ≤ l.length)] at h

/-- The guard branch of the backspace handler: a no-op. -/
theorem do_backspace_guard (s : EdState)
    (hg : s.buffer = [[]] ∨ (s.bufcur_x = 0 ∧ s.bufcur_y = 0)) :
    do_backspace s = s := by
  simp only [do_backspace]
  rw [if_pos hg]

/-- The empty-current-line branch of the backspace handler. -/
theorem do_backspace_emptyline (s : EdState) (Y : Nat) (hY : s.bufcur_y = (Y : Int))
    (hg : ¬ (s.buffer = [[]] ∨ (s.bufcur_x = 0 ∧ s.bufcur_y = 0)))
    (hempty : curLine s = []) :
    do_backspace s =
      { s with
        buffer := (if (Y : Int) < (s.buffer.length : Int) - 1
          then s.buffer.take Y ++ s.buffer.drop (Y + 1) else s.buffer.dropLast),
        bufcur_y := (Y : Int) - 1,
        bufcur_x := ((pygetD (if (Y : Int) < (s.buffer.length : Int) - 1
          then s.buffer.take Y ++ s.buffer.drop (Y + 1) else s.buffer.dropLast)
          ((Y : Int) - 1) []).length : Int) } := by
  simp only [do_backspace]
  rw [if_neg hg, if_pos hempty, hY, natCast_add_one_toInt Y, pySliceTo_natCast,
    pySliceFrom_natCast, pySliceTo_neg_one]

/-- The `col == 0` join branch of the backspace handler (extended
    variant). -/
theorem do_backspace_join_eq (s : EdState) (Y : Nat) (hY : s.bufcur_y = (Y : Int))
    (hY1 : 1 ≤ Y) (hYlen : Y < s.buffer.length)
    (hx : s.bufcur_x = 0) (hline : curLine s ≠ []) :
    do_backspace s =
      { s with
        buffer := s.buffer.take (Y - 1) ++
          (s.buffer.getD (Y - 1) [] ++ curLine s) :: s.buffer.drop (Y + 1),
        bufcur_y := (Y : Int) - 1,
        bufcur_x := ((s.buffer.getD (Y - 1) []).length : Int) } := by
  simp only [do_backspace, hx, hY, true_and, eq_self_iff_true, if_true]
  have hguard : ¬ (s.buffer = [[]] ∨ (Y : Int) = 0) := by
    rintro (hb | hy')
    · have hone : s.buffer.length = 1 := by rw [hb]; rfl
      omega
    · omega
  rw [if_neg hguard, if_neg hline]
  rw [natCast_sub_one_toInt Y hY1, natCast_add_one_toInt Y, pygetD_natCast,
    pySliceTo_natCast, pySliceFrom_natCast]
  rw [if_neg (show ¬ (s.buffer.take Y = []) by
    intro h
    have hl := congrArg List.length h
    rw [List.length_take] at hl
    simp only [List.length_nil] at hl
    omega)]
  have hd : (s.buffer.take Y).dropLast = s.buffer.take (Y - 1) := by
    rw [List.dropLast_eq_take, List.take_take, List.length_take]
    congr 1
    omega
  rw [pySetLast, hd]
  ext <;> simp

/-- The mid-line character-delete branch of the backspace handler. -/
theorem do_backspace_inline (s : EdState)
    (hg : ¬ (s.buffer = [[]] ∨ (s.bufcur_x = 0 ∧ s.bufcur_y = 0)))
    (hline : curLine s ≠ []) (hx : ¬ (s.bufcur_x = 0))
    (hlt : s.bufcur_x < ((curLine s).length : Int)) :
    do_backspace s =
      { s with
        buffer := pySet s.buffer s.bufcur_y
          (pySliceTo (curLine s) (s.bufcur_x - 1) ++ pySliceFrom (curLine s) s.bufcur_x),
        bufcur_x := s.bufcur_x - 1 } := by
  simp only [do_backspace]
  rw [if_neg hg, if_neg hline, if_neg hx, if_pos hlt]

/-- The end-of-line character-delete branch of the backspace handler. -/
theorem do_backspace_lineend (s : EdState)
    (hg : ¬ (s.buffer = [[]] ∨ (s.bufcur_x = 0 ∧ s.bufcur_y = 0)))
    (hline : curLine s ≠ []) (hx : ¬ (s.bufcur_x = 0))
    (hlt : ¬ (s.bufcur_x < ((curLine s).length : Int))) :
    do_backspace s =
      { s with
        buffer := pySet s.buffer s.bufcur_y (pySliceTo (curLine s) (-1)),
        bufcur_x := s.bufcur_x - 1 } := by
  simp only [do_backspace]
  rw [if_neg hg, if_neg hline, if_neg hx, if_neg hlt]

/-- C5: backspace at `col = 0` on a non-empty, non-first line joins the
    current line onto the end of the previous one — the document keeps
    every other line and loses exactly that one — and moves the cursor
    to `(row - 1, previous line's old length)`; and splitting a line
    with Enter and then joining with backspace reconstructs the state
    exactly.  (Extended variant; the base variant's `col == 0` branch
    instead sets the column from the length of the list slice
    `buffer[:row-1]` and overwrites line `row-2`.) -/
theorem C5_backspace_join :
    (∀ s : EdState, 0 < s.bufcur_y → s.bufcur_y < (s.buffer.length : Int) →
       s.bufcur_x = 0 → curLine s ≠ [] →
       (do_backspace s).buffer =
         s.buffer.take (s.bufcur_y.toNat - 1) ++
           (s.buffer.getD (s.bufcur_y.toNat - 1) [] ++ curLine s) ::
             s.buffer.drop (s.bufcur_y.toNat + 1) ∧
       ((do_backspace s).buffer.length : Int) = (s.buffer.length : Int) - 1 ∧
       (do_backspace s).bufcur_y = s.bufcur_y - 1 ∧
       (do_backspace s).bufcur_x = ((s.buffer.getD (s.bufcur_y.toNat - 1) []).length : Int)) ∧
    (∀ s : EdState, 0 ≤ s.bufcur_x → s.bufcur_x ≤ ((curLine s).length : Int) →
       0 ≤ s.bufcur_y → s.bufcur_y < (s.buffer.length : Int) - 1 →
       do_backspace (do_enter s) = s) := by
  constructor
  · intro s hy0 hylen hx hline
    obtain ⟨Y, hY⟩ : ∃ n : Nat, s.bufcur_y = (n : Int) :=
      Int.eq_ofNat_of_zero_le (by omega)
    rw [hY] at hy0 hylen
    have hY1 : 1 ≤ Y := by omega
    have hYlen : Y < s.buffer.length := by omega
    have htoNat : s.bufcur_y.toNat = Y := by omega
    have hkey := do_backspace_join_eq s Y hY hY1 hYlen hx hline
    rw [hkey, htoNat]
    refine ⟨by simp, ?_, by simp [hY], by simp⟩
    show ((s.buffer.take (Y - 1) ++
        (s.buffer.getD (Y - 1) [] ++ curLine s) :: s.buffer.drop (Y + 1)).length : Int) =
      (s.buffer.length : Int) - 1
    rw [List.length_append]
    simp only [List.length_cons, List.length_take, List.length_drop]
    push_cast
    omega
  · intro s hx0 hxle hy0 hylt
    obtain ⟨Y, hY⟩ : ∃ n : Nat, s.bufcur_y = (n : Int) := Int.eq_ofNat_of_zero_le hy0
    obtain ⟨X, hX⟩ : ∃ n : Nat, s.bufcur_x = (n : Int) := Int.eq_ofNat_of_zero_le hx0
    rw [hY] at hylt
    rw [hX] at hxle
    have hYb : Y + 1 < s.buffer.length := by omega
    have hXle : X ≤ (curLine s).length := by omega
    have hcurY : curLine s = s.buffer[Y] := by
      rw [curLine, hY, pygetD_natCast]
      exact List.getD_eq_getElem s.buffer [] (by omega)
    have henter : do_enter s =
        { s with
          buffer := s.buffer.take Y ++
            (curLine s).take X :: (curLine s).drop X :: s.buffer.drop (Y + 1),
          bufcur_y := (Y : Int) + 1, bufcur_x := 0 } := by
      simp only [do_enter, hY, hX]
      rw [if_pos (show (Y : Int) < (s.buffer.length : Int) - 1 by omega)]
      by_cases hsplit : X < (curLine s).length
      · rw [if_pos (show (X : Int) < ((curLine s).length : Int) by omega)]
        rw [natCast_add_one_toInt, pySliceTo_natCast, pySliceTo_natCast,
          pySliceFrom_natCast, pySliceFrom_natCast, pySetLast,
          List.drop_eq_getElem_cons (show Y < s.buffer.length by omega)]
        have h1 : (s.buffer.take (Y + 1)).dropLast = s.buffer.take Y := by
          rw [List.dropLast_eq_take, List.take_take, List.length_take]
          congr 1
          omega
        rw [h1, pySetHead]
        ext <;> simp
      · rw [if_neg (show ¬ ((X : Int) < ((curLine s).length : Int)) by omega)]
        have hX' : X = (curLine s).length := by omega
        rw [natCast_add_one_toInt, pySliceTo_natCast, pySliceFrom_natCast]
        rw [show s.buffer.take (Y + 1) = s.buffer.take Y ++ [s.buffer[Y]] from
          (List.take_concat_get' s.buffer Y (by omega)).symm]
        rw [hX', List.take_length, List.drop_length, ← hcurY]
        ext <;> simp
    rw [henter]
    rw [do_backspace_restore _ s.buffer ((curLine s).take X) ((curLine s).drop X) Y
      rfl rfl rfl hYb]
    have hbufback : s.buffer.take Y ++
        ((curLine s).take X ++ (curLine s).drop X) :: s.buffer.drop (Y + 1) = s.buffer := by
      rw [List.take_append_drop, hcurY,
        ← List.drop_eq_getElem_cons (show Y < s.buffer.length by omega),
        List.take_append_drop]
    refine EdState.ext ?_ rfl rfl rfl ?_ ?_ rfl rfl rfl rfl rfl
    · exact hbufback
    · show ((((curLine s).take X).length : Nat) : Int) = s.bufcur_x
      rw [List.length_take, Nat.min_eq_left hXle, hX]
    · exact hY.symm

/-- C5 witness: the join at `["aa","bb","cc"]`, cursor (2, 0), and the
    split/join round trip at `["hello","x"]`, cursor (0, 2). -/
theorem C5_backspace_join_witness :
    ((do_backspace (mkState [['a','a'],['b','b'],['c','c']] 0 2 4)).buffer
       = [['a','a'], ['b','b','c','c']] ∧
     (do_backspace (mkState [['a','a'],['b','b'],['c','c']] 0 2 4)).bufcur_x = 2) ∧
    do_backspace (do_enter (mkState [['h','e','l','l','o'],['x']] 2 0 4)) =
      mkState [['h','e','l','l','o'],['x']] 2 0 4 := by
  have h1 := C5_backspace_join.1 (mkState [['a','a'],['b','b'],['c','c']] 0 2 4)
    (by decide) (by decide) (by decide) (by decide)
  have h2 := C5_backspace_join.2 (mkState [['h','e','l','l','o'],['x']] 2 0 4)
    (by decide) (by decide) (by decide) (by decide)
  exact ⟨⟨by rw [h1.1]; decide, by rw [h1.2.2.2]; decide⟩, h2⟩

/-! ## Claim C6 -/

/-- The guard branch of the Del handler: a no-op. -/
theorem do_del_guard (s : EdState)
    (hg : s.buffer = [[]] ∨ (s.bufcur_x ≥ ((curLine s).length : Int) ∧
           s.bufcur_y ≥ (s.buffer.length : Int) - 1)) :
    do_del s = s := by
  simp only [do_del]
  rw [if_pos hg]

/-- The end-of-line line-join branch of the Del handler. -/
theorem do_del_join (s : EdState)
    (hg : ¬ (s.buffer = [[]] ∨ (s.bufcur_x ≥ ((curLine s).length : Int) ∧
           s.bufcur_y ≥ (s.buffer.length : Int) - 1)))
    (hc : s.bufcur_x ≥ ((curLine s).length : Int) ∧
          s.bufcur_y + 1 < (s.buffer.length : Int)) :
    do_del s = { s with
      buffer := pyDelAt
        (pySet s.buffer s.bufcur_y (curLine s ++ pygetD s.buffer (s.bufcur_y + 1) []))
        (s.bufcur_y + 1) } := by
  simp only [do_del]
  rw [if_neg hg, if_pos hc]

/-- The in-line character-delete branch of the Del handler. -/
theorem do_del_inline (s : EdState)
    (hg : ¬ (s.buffer = [[]] ∨ (s.bufcur_x ≥ ((curLine s).length : Int) ∧
           s.bufcur_y ≥ (s.buffer.length : Int) - 1)))
    (hc : ¬ (s.bufcur_x ≥ ((curLine s).length : Int) ∧
           s.bufcur_y + 1 < (s.buffer.length : Int))) :
    do_del s = { s with
      buffer := pySet s.buffer s.bufcur_y
        (pySliceTo (curLine s) s.bufcur_x ++ pySliceFrom (curLine s) (s.bufcur_x + 1)) } := by
  simp only [do_del]
  rw [if_neg hg, if_neg hc]

/-- The state well-formedness maintained by the editor: a non-empty
    document, the cursor row on an existing line and the cursor column
    within the current line. -/
def EdInv (s : EdState) : Prop :=
  1 ≤ s.buffer.length ∧ 0 ≤ s.bufcur_y ∧ s.bufcur_y < (s.buffer.length : Int) ∧
  0 ≤ s.bufcur_x ∧ s.bufcur_x ≤ ((curLine s).length : Int)

instance (s : EdState) : Decidable (EdInv s) := by
  unfold EdInv
  infer_instance

theorem do_backspace_inv (s : EdState) (h : EdInv s) : EdInv (do_backspace s) := by
  obtain ⟨hlen, hy0, hylen, hx0, hxle⟩ := h
  obtain ⟨Y, hY⟩ : ∃ n : Nat, s.bufcur_y = (n : Int) := Int.eq_ofNat_of_zero_le hy0
  have hYlen : Y < s.buffer.length := by
    have h' := hylen
    rw [hY] at h'
    omega
  by_cases hg : s.buffer = [[]] ∨ (s.bufcur_x = 0 ∧ s.bufcur_y = 0)
  · rw [do_backspace_guard s hg]
    exact ⟨hlen, hy0, hylen, hx0, hxle⟩
  by_cases hempty : curLine s = []
  · have hx' : s.bufcur_x = 0 := by
      rw [hempty] at hxle
      simp only [List.length_nil, Nat.cast_zero] at hxle
      omega
    have hY1 : 1 ≤ Y := by
      rcases Nat.eq_zero_or_pos Y with h0 | h1
      · exact absurd (Or.inr ⟨hx', by rw [hY, h0]; rfl⟩) hg
      · exact h1
    rw [do_backspace_emptyline s Y hY hg hempty]
    unfold EdInv
    by_cases hYlast : (Y : Int) < (s.buffer.length : Int) - 1
    · rw [if_pos hYlast]
      have hlen' : (s.buffer.take Y ++ s.buffer.drop (Y + 1)).length = s.buffer.length - 1 := by
        simp only [List.length_append, List.length_take, List.length_drop]
        omega
      refine ⟨?_, by show (0 : Int) ≤ (Y : Int) - 1; omega, ?_,
        Int.natCast_nonneg _, le_refl _⟩
      · show 1 ≤ (s.buffer.take Y ++ s.buffer.drop (Y + 1)).length
        omega
      · show (Y : Int) - 1 < ((s.buffer.take Y ++ s.buffer.drop (Y + 1)).length : Int)
        rw [hlen']
        omega
    · rw [if_neg hYlast]
      have hlen' : s.buffer.dropLast.length = s.buffer.length - 1 := by
        simp [List.length_dropLast]
      refine ⟨?_, by show (0 : Int) ≤ (Y : Int) - 1; omega, ?_,
        Int.natCast_nonneg _, le_refl _⟩
      · show 1 ≤ s.buffer.dropLast.length
        omega
      · show (Y : Int) - 1 < (s.buffer.dropLast.length : Int)
        rw [hlen']
        omega
  by_cases hxz : s.bufcur_x = 0
  · have hY1 : 1 ≤ Y := by
      rcases Nat.eq_zero_or_pos Y with h0 | h1
      · exact absurd (Or.inr ⟨hxz, by rw [hY, h0]; rfl⟩) hg
      · exact h1
    rw [do_backspace_join_eq s Y hY hY1 hYlen hxz hempty]
    unfold EdInv
    have hlen' : (s.buffer.take (Y - 1) ++
        (s.buffer.getD (Y - 1) [] ++ curLine s) :: s.buffer.drop (Y + 1)).length
        = s.buffer.length - 1 := by
      simp only [List.length_append, List.length_take, List.length_cons, List.length_drop]
      omega
    have hcur : curLine { s with
        buffer := s.buffer.take (Y - 1) ++
          (s.buffer.getD (Y - 1) [] ++ curLine s) :: s.buffer.drop (Y + 1),
        bufcur_y := (Y : Int) - 1,
        bufcur_x := ((s.buffer.getD (Y - 1) []).length : Int) } =
        s.buffer.getD (Y - 1) [] ++ curLine s := by
      show pygetD (s.buffer.take (Y - 1) ++
        (s.buffer.getD (Y - 1) [] ++ curLine s) :: s.buffer.drop (Y + 1)) ((Y : Int) - 1) [] = _
      rw [natCast_sub_one_toInt Y hY1, pygetD_natCast]
      have h := getD_append_len (s.buffer.take (Y - 1))
        (s.buffer.getD (Y - 1) [] ++ curLine s) (s.buffer.drop (Y + 1)) []
      rwa [List.length_take, Nat.min_eq_left (by omega : Y - 1 ≤ s.buffer.length)] at h
    refine ⟨?_, by show (0 : Int) ≤ (Y : Int) - 1; omega, ?_, Int.natCast_nonneg _, ?_⟩
    · show 1 ≤ (s.buffer.take (Y - 1) ++
        (s.buffer.getD (Y - 1) [] ++ curLine s) :: s.buffer.drop (Y + 1)).length
      omega
    · show (Y : Int) - 1 < ((s.buffer.take (Y - 1) ++
        (s.buffer.getD (Y - 1) [] ++ curLine s) :: s.buffer.drop (Y + 1)).length : Int)
      rw [hlen']
      omega
    · rw [hcur]
      show ((s.buffer.getD (Y - 1) []).length : Int) ≤
        ((s.buffer.getD (Y - 1) [] ++ curLine s).length : Int)
      rw [List.length_append]
      push_cast
      omega
  by_cases hxlt : s.bufcur_x < ((curLine s).length : Int)
  · rw [do_backspace_inline s hg hempty hxz hxlt]
    unfold EdInv
    obtain ⟨X, hX⟩ : ∃ n : Nat, s.bufcur_x = (n : Int) := Int.eq_ofNat_of_zero_le hx0
    have hX1 : 1 ≤ X := by
      rcases Nat.eq_zero_or_pos X with h0 | h1
      · exact absurd (by rw [hX, h0]; rfl) hxz
      · exact h1
    have hXlt : X < (curLine s).length := by
      have h' := hxlt
      rw [hX] at h'
      omega
    have hlen' := length_pySet s.buffer s.bufcur_y
      (pySliceTo (curLine s) (s.bufcur_x - 1) ++ pySliceFrom (curLine s) s.bufcur_x)
      hy0 hylen
    have hcur : curLine { s with
        buffer := pySet s.buffer s.bufcur_y
          (pySliceTo (curLine s) (s.bufcur_x - 1) ++ pySliceFrom (curLine s) s.bufcur_x),
        bufcur_x := s.bufcur_x - 1 } =
        pySliceTo (curLine s) (s.bufcur_x - 1) ++ pySliceFrom (curLine s) s.bufcur_x := by
      show pygetD (pySet s.buffer s.bufcur_y _) s.bufcur_y [] = _
      exact pygetD_pySet_self _ _ _ _ hy0 hylen
    refine ⟨?_, hy0, ?_, by show (0 : Int) ≤ s.bufcur_x - 1; omega, ?_⟩
    · show 1 ≤ (pySet s.buffer s.bufcur_y _).length
      rw [hlen']
      omega
    · show s.bufcur_y < ((pySet s.buffer s.bufcur_y _).length : Int)
      rw [hlen']
      exact hylen
    · rw [hcur]
      rw [hX, natCast_sub_one_toInt X hX1, pySliceTo_natCast, pySliceFrom_natCast]
      rw [List.length_append, List.length_take, List.length_drop,
        Nat.min_eq_left (by omega : X - 1 ≤ (curLine s).length)]
      push_cast
      omega
  · rw [do_backspace_lineend s hg hempty hxz hxlt]
    unfold EdInv
    have hL1 : 1 ≤ (curLine s).length := by
      rcases Nat.eq_zero_or_pos (curLine s).length with h0 | h1
      · exact absurd (List.eq_nil_of_length_eq_zero h0) hempty
      · exact h1
    have hlen' := length_pySet s.buffer s.bufcur_y (pySliceTo (curLine s) (-1)) hy0 hylen
    have hcur : curLine { s with
        buffer := pySet s.buffer s.bufcur_y (pySliceTo (curLine s) (-1)),
        bufcur_x := s.bufcur_x - 1 } = pySliceTo (curLine s) (-1) := by
      show pygetD (pySet s.buffer s.bufcur_y _) s.bufcur_y [] = _
      exact pygetD_pySet_self _ _ _ _ hy0 hylen
    refine ⟨?_, hy0, ?_, by show (0 : Int) ≤ s.bufcur_x - 1; omega, ?_⟩
    · show 1 ≤ (pySet s.buffer s.bufcur_y _).length
      rw [hlen']
      omega
    · show s.bufcur_y < ((pySet s.buffer s.bufcur_y _).length : Int)
      rw [hlen']
      exact hylen
    · rw [hcur, pySliceTo_neg_one, List.length_dropLast]
      push_cast
      omega

theorem do_del_inv (s : EdState) (h : EdInv s) : EdInv (do_del s) := by
  obtain ⟨hlen, hy0, hylen, hx0, hxle⟩ := h
  obtain ⟨Y, hY⟩ : ∃ n : Nat, s.bufcur_y = (n : Int) := Int.eq_ofNat_of_zero_le hy0
  have hYlen : Y < s.buffer.length := by
    have h' := hylen
    rw [hY] at h'
    omega
  by_cases hg : s.buffer = [[]] ∨ (s.bufcur_x ≥ ((curLine s).length : Int) ∧
      s.bufcur_y ≥ (s.buffer.length : Int) - 1)
  · rw [do_del_guard s hg]
    exact ⟨hlen, hy0, hylen, hx0, hxle⟩
  by_cases hc : s.bufcur_x ≥ ((curLine s).length : Int) ∧
      s.bufcur_y + 1 < (s.buffer.length : Int)
  · rw [do_del_join s hg hc]
    unfold EdInv
    have hsetlen := length_pySet s.buffer s.bufcur_y
      (curLine s ++ pygetD s.buffer (s.bufcur_y + 1) []) hy0 hylen
    have hdellen : (pyDelAt
        (pySet s.buffer s.bufcur_y (curLine s ++ pygetD s.buffer (s.bufcur_y + 1) []))
        (s.bufcur_y + 1)).length = s.buffer.length - 1 := by
      rw [length_pyDelAt _ _ (by omega) (by rw [hsetlen]; omega), hsetlen]
    have hshape : pyDelAt
        (pySet s.buffer s.bufcur_y (curLine s ++ pygetD s.buffer (s.bufcur_y + 1) []))
        (s.bufcur_y + 1) =
        s.buffer.take Y ++
          (curLine s ++ pygetD s.buffer (s.bufcur_y + 1) []) :: s.buffer.drop (Y + 2) := by
      rw [hY, pySet_natCast, natCast_add_one_toInt Y, pyDelAt_natCast]
      have htY : (s.buffer.take Y).length = Y := by
        rw [List.length_take]
        omega
      rw [delAt_shape (s.buffer.take Y)
        (curLine s ++ pygetD s.buffer ((Y + 1 : Nat) : Int) [])
        (s.buffer.drop (Y + 1)) (Y + 1) (Y + 1 + 1) (by rw [htY]) (by rw [htY])]
      rw [List.drop_drop, show Y + 1 + 1 = Y + 2 by omega]
    have hcur : curLine { s with
        buffer := pyDelAt
          (pySet s.buffer s.bufcur_y (curLine s ++ pygetD s.buffer (s.bufcur_y + 1) []))
          (s.bufcur_y + 1) } =
        curLine s ++ pygetD s.buffer (s.bufcur_y + 1) [] := by
      show pygetD _ s.bufcur_y [] = _
      rw [hshape, hY, pygetD_natCast]
      have h := getD_append_len (s.buffer.take Y)
        (curLine s ++ pygetD s.buffer (s.bufcur_y + 1) []) (s.buffer.drop (Y + 2)) []
      rw [List.length_take, Nat.min_eq_left (by omega : Y ≤ s.buffer.length)] at h
      rw [hY] at h
      exact h
    refine ⟨?_, hy0, ?_, hx0, ?_⟩
    · show 1 ≤ (pyDelAt _ _).length
      rw [hdellen]
      omega
    · show s.bufcur_y < ((pyDelAt _ _).length : Int)
      rw [hdellen]
      omega
    · rw [hcur]
      rw [List.length_append]
      push_cast
      omega
  · rw [do_del_inline s hg hc]
    unfold EdInv
    have hxL : s.bufcur_x < ((curLine s).length : Int) := by
      by_contra hA
      push_neg at hA
      have hB : ¬ (s.bufcur_y + 1 < (s.buffer.length : Int)) := fun hB => hc ⟨by omega, hB⟩
      exact hg (Or.inr ⟨by omega, by omega⟩)
    have hlen' := length_pySet s.buffer s.bufcur_y
      (pySliceTo (curLine s) s.bufcur_x ++ pySliceFrom (curLine s) (s.bufcur_x + 1))
      hy0 hylen
    have hcur : curLine { s with
        buffer := pySet s.buffer s.bufcur_y
          (pySliceTo (curLine s) s.bufcur_x ++ pySliceFrom (curLine s) (s.bufcur_x + 1)) } =
        pySliceTo (curLine s) s.bufcur_x ++ pySliceFrom (curLine s) (s.bufcur_x + 1) := by
      show pygetD (pySet s.buffer s.bufcur_y _) s.bufcur_y [] = _
      exact pygetD_pySet_self _ _ _ _ hy0 hylen
    obtain ⟨X, hX⟩ : ∃ n : Nat, s.bufcur_x = (n : Int) := Int.eq_ofNat_of_zero_le hx0
    have hXlt : X < (curLine s).length := by
      have h' := hxL
      rw [hX] at h'
      omega
    refine ⟨?_, hy0, ?_, hx0, ?_⟩
    · show 1 ≤ (pySet s.buffer s.bufcur_y _).length
      rw [hlen']
      omega
    · show s.bufcur_y < ((pySet s.buffer s.bufcur_y _).length : Int)
      rw [hlen']
      exact hylen
    · rw [hcur]
      rw [hX, pySliceTo_natCast, natCast_add_one_toInt X, pySliceFrom_natCast]
      rw [List.length_append, List.length_take, List.length_drop,
        Nat.min_eq_left (by omega : X ≤ (curLine s).length)]
      push_cast
      omega

/-- A keystroke of the delete family: backspace (key 127) or the Del
    key (key 330), as dispatched by the mainloop. -/
inductive EditOp
  | bs | del
deriving DecidableEq

def applyEdit (s : EdState) : EditOp → EdState
  | .bs => do_backspace s
  | .del => do_del s

theorem applyEdit_inv (s : EdState) (op : EditOp) (h : EdInv s) : EdInv (applyEdit s op) := by
  cases op
  · exact do_backspace_inv s h
  · exact do_del_inv s h

/-- C6: starting from any well-formed state (non-empty document,
    in-bounds cursor), after any sequence of backspace and
    forward-delete keystrokes the document still has at least one
    line. -/
theorem C6_buffer_never_empty (ops : List EditOp) (s : EdState) (h : EdInv s) :
    1 ≤ (ops.foldl applyEdit s).buffer.length := by
  induction ops generalizing s with
  | nil => exact h.1
  | cons op rest ih =>
    rw [List.foldl_cons]
    exact ih (applyEdit s op) (applyEdit_inv s op h)

/-- C6 witness: a concrete run of backspaces and deletes. -/
theorem C6_buffer_never_empty_witness :
    EdInv (mkState [['a','b'],['c']] 1 0 3) ∧
    1 ≤ (([EditOp.bs, EditOp.del, EditOp.bs, EditOp.bs, EditOp.del].foldl applyEdit
      (mkState [['a','b'],['c']] 1 0 3)).buffer).length :=
  ⟨by decide, C6_buffer_never_empty [EditOp.bs, EditOp.del, EditOp.bs, EditOp.bs, EditOp.del]
    (mkState [['a','b'],['c']] 1 0 3) (by decide)⟩

/-! ## Claim C7 -/

/-- C7: the claim states that every cursor-affecting command (page
    up/down clamped to document bounds included) leaves
    `row < document.length`.  The `pd` branch of `do_cmd` tests
    `bufcur_y + win_h - 1 <= len(buffer)` where the clamped branch
    requires `< len`, so from row 3 of a 5-line document with a 3-row
    window it moves the cursor to row 5 = document.length, one past the
    last line.  This theorem evaluates the code at that input. -/
theorem C7_page_down_exits_document :
    (do_cmd { mkState [['a'],['b'],['c'],['d'],['e']] 0 3 4 with
        cmdbuffer := ['p','d'], win_h := 3 } []).map (fun p => p.1.bufcur_y) =
      some 5 ∧
    ((mkState [['a'],['b'],['c'],['d'],['e']] 0 3 4).buffer.length : Int) = 5 ∧
    ¬ ((5 : Int) < 5) :=
  ⟨by decide, by decide, by decide⟩

/-! ## Claim C8 -/

/-- C8: the claim states that a confirmed command with an unparsable
    numeric argument is silently discarded, leaving all state
    unchanged.  The code passes the raw argument to Python's `int`,
    which raises ValueError on unparsable input; the exception escapes
    `do_cmd` (the `if cp != None` guard never runs) and aborts the main
    loop.  `none` models that raise: `u-zz`, `tabsz x` and `g x` all
    raise, none of them returns the unchanged state. -/
theorem C8_malformed_numeric_raises :
    do_cmd { mkState [['a']] 0 0 4 with cmdbuffer := ['u','-','z','z'] } [] = none ∧
    do_cmd { mkState [['a']] 0 0 4 with cmdbuffer := ['t','a','b','s','z',' ','x'] } [] = none ∧
    do_cmd { mkState [['a']] 0 0 4 with cmdbuffer := ['g',' ','x'] } [] = none ∧
    do_cmd { mkState [['a']] 0 0 4 with cmdbuffer := ['u','-','z','z'] } [] ≠
      some ({ mkState [['a']] 0 0 4 with cmdbuffer := ['u','-','z','z'] }, false) :=
  ⟨by decide, by decide, by decide, by decide⟩

/-! ## Syntax tokenizer (decor_syntax, etc/djacarta.py lines 81-109)

    The ten regular expressions are embedded as abstract syntax trees
    over `RE` and interpreted by a backtracking matcher that mirrors
    Python `re` semantics: alternation prefers its left branch,
    quantifiers are greedy, `\b` tests a word/non-word transition, and
    `re.sub` replaces leftmost non-overlapping matches and resumes after
    each.  `mrun` returns candidate matches (consumed length and
    remainder) in backtracking preference order; the match Python
    selects is the first. -/

inductive RE where
  | eps
  | chr (c : Char)
  | cls (p : Char → Bool)
  | seq (a b : RE)
  | alt (a b : RE)
  | star (a : RE)
  | opt (a : RE)
  | look (positive : Bool) (a : RE)
  | wordb

/-- `\w` over the ASCII range (the tokenizer's patterns are all ASCII;
    `re` on `str` is Unicode-aware, which no claim exercises). -/
def wordChar (c : Char) : Bool :=
  (decide ('a' ≤ c) && decide (c ≤ 'z')) || (decide ('A' ≤ c) && decide (c ≤ 'Z')) ||
  (decide ('0' ≤ c) && decide (c ≤ '9')) || decide (c = '_')

def isWordOpt : Option Char → Bool
  | none => false
  | some c => wordChar c

/-- The character consumed immediately before position `n` of `s`,
    given the character just before `s` itself. -/
def lastOf (prev : Option Char) (s : List Char) (n : Nat) : Option Char :=
  if n = 0 then prev else s[n - 1]?

/-- All candidate matches of `r` at the start of `s`, as (consumed
    length, rest), in Python backtracking preference order.  `prev` is
    the character before `s` (for `\b`).  `fuel` decreases at every
    node, so the recursion is structural and computes in the kernel;
    with enough fuel (the pattern nesting depth per character consumed
    is bounded, `reFind` passes a generous amount) the candidate list
    is exactly the backtracking order of Python's engine, and the C10
    lemmas hold for every fuel. -/
def mrun : Nat → RE → Option Char → List Char → List (Nat × List Char)
  | 0, _, _, _ => []
  | fuel + 1, r, prev, s =>
    match r with
    | .eps => [(0, s)]
    | .chr c =>
      match s with
      | [] => []
      | x :: xs => if x = c then [(1, xs)] else []
    | .cls p =>
      match s with
      | [] => []
      | x :: xs => if p x then [(1, xs)] else []
    | .seq a b =>
      (mrun fuel a prev s).flatMap fun m =>
        (mrun fuel b (lastOf prev s m.1) m.2).map fun m2 => (m.1 + m2.1, m2.2)
    | .alt a b => mrun fuel a prev s ++ mrun fuel b prev s
    | .star a =>
      ((mrun fuel a prev s).flatMap fun m =>
        if m.1 = 0 then []
        else (mrun fuel (.star a) (lastOf prev s m.1) m.2).map
          fun m2 => (m.1 + m2.1, m2.2))
      ++ [(0, s)]
    | .opt a => mrun fuel a prev s ++ [(0, s)]
    | .look positive a =>
      if (mrun fuel a prev s).isEmpty = positive then [] else [(0, s)]
    | .wordb => if isWordOpt prev != isWordOpt s.head? then [(0, s)] else []

/-- The match Python's engine selects at a position: the first
    candidate in backtracking order. -/
def reFind (r : RE) (prev : Option Char) (s : List Char) : Option (Nat × List Char) :=
  (mrun ((s.length + 4) * 64) r prev s).head?

/-- One `re.sub` pass over `s`: at each position try the pattern; on a
    match `w`, emit `tmpl w` and resume after the match, else emit the
    character and move on.  (The `n = 0` case — an empty match — cannot
    occur for the tokenizer's patterns, which all consume at least one
    character; it is skipped over to keep the scan total.) -/
def subScan (fuel : Nat) (r : RE) (tmpl : List Char → List Char)
    (prev : Option Char) (s : List Char) : List Char :=
  match fuel, s with
  | 0, s => s
  | _ + 1, [] => []
  | fuel + 1, c :: rest =>
    match reFind r prev (c :: rest) with
    | some (n, rest') =>
      if n = 0 then c :: subScan fuel r tmpl (some c) rest
      else tmpl ((c :: rest).take n) ++
        subScan fuel r tmpl (lastOf prev (c :: rest) n) rest'
    | none => c :: subScan fuel r tmpl (some c) rest

/-- `re.sub(r, tmpl, s)`. -/
def pysub (r : RE) (tmpl : List Char → List Char) (s : List Char) : List Char :=
  subScan (s.length + 1) r tmpl none s

/-! ### The ten patterns, transliterated -/

/-- literal string as a pattern -/
def strRE (l : List Char) : RE :=
  l.foldr (fun c r => .seq (.chr c) r) .eps

def altsRE : List RE → RE
  | [] => .eps
  | [r] => r
  | r :: rest => .alt r (altsRE rest)

/-- alternation of literal words, in the listed order -/
def wordsRE (ws : List String) : RE :=
  altsRE (ws.map fun w => strRE w.toList)

def isDigit (c : Char) : Bool := decide ('0' ≤ c) && decide (c ≤ '9')

def isHexDigit (c : Char) : Bool :=
  isDigit c || (decide ('a' ≤ c) && decide (c ≤ 'f')) ||
    (decide ('A' ≤ c) && decide (c ≤ 'F'))

/-- `[A-Za-z_]` -/
def identStart (c : Char) : Bool :=
  (decide ('a' ≤ c) && decide (c ≤ 'z')) || (decide ('A' ≤ c) && decide (c ≤ 'Z')) ||
    decide (c = '_')

/-- `\s` over the ASCII range -/
def isSpace (c : Char) : Bool :=
  decide (c = ' ') || decide (c = '\t') || decide (c = '\n') || decide (c = '\r') ||
    decide (c = '\x0b') || decide (c = '\x0c')

/-- `r'(/\*)'` -/
def expr_commentopen : RE := .seq (.chr '/') (.chr '*')

/-- `r'(\*/)'` -/
def expr_commentclos : RE := .seq (.chr '*') (.chr '/')

/-- `r'\b(break|case|continue|default|do|else|enum|for|goto|if|return|sizeof|struct|switch|typedef|while|union)\b'` -/
def expr_keyword : RE :=
  .seq .wordb (.seq (wordsRE ["break", "case", "continue", "default", "do", "else",
    "enum", "for", "goto", "if", "return", "sizeof", "struct", "switch", "typedef",
    "while", "union"]) .wordb)

/-- `r'\b(([A-Za-z_][A-Za-z0-9_]*)(?=\s*\())'` -/
def expr_function : RE :=
  .seq .wordb (.seq (.cls identStart) (.seq (.star (.cls wordChar))
    (.look true (.seq (.star (.cls isSpace)) (.chr '(')))))

/-- `r'\b(char|const|double|extern|float|inline|int|long|register|restrict|short|signed|static|unsigned|void|volatile)\b'` -/
def expr_type : RE :=
  .seq .wordb (.seq (wordsRE ["char", "const", "double", "extern", "float", "inline",
    "int", "long", "register", "restrict", "short", "signed", "static", "unsigned",
    "void", "volatile"]) .wordb)

/-- `[0-9']`, `[0-9a-fA-F']`, `[01]`, `[01']` -/
def isDigitQ (c : Char) : Bool := isDigit c || decide (c = '\'')

def isHexDigitQ (c : Char) : Bool := isHexDigit c || decide (c = '\'')

def isBinDigit (c : Char) : Bool := decide (c = '0') || decide (c = '1')

def isBinDigitQ (c : Char) : Bool := isBinDigit c || decide (c = '\'')

/-- `([0-9']*[0-9])?` and its hex/binary analogues -/
def tailDigitsOpt (q d : Char → Bool) : RE := .opt (.seq (.star (.cls q)) (.cls d))

/-- `r"\b(((0(x|X)[0-9a-fA-F]([0-9a-fA-F']*[0-9a-fA-F])?)|(0(b|B)[01]([01']*[01])?)|(([0-9]([0-9']*[0-9])?\.?[0-9]*([0-9']*[0-9])?)|(\.[0-9]([0-9']*[0-9])?))((e|E)(\+|-)?[0-9]([0-9']*[0-9])?)?)(L|l|UL|ul|u|U|F|f|ll|LL|ull|ULL)?)\b"` -/
def expr_numeric : RE :=
  .seq .wordb (.seq
    (.seq
      (.alt
        (.seq (.chr '0') (.seq (.alt (.chr 'x') (.chr 'X'))
          (.seq (.cls isHexDigit) (tailDigitsOpt isHexDigitQ isHexDigit))))
        (.alt
          (.seq (.chr '0') (.seq (.alt (.chr 'b') (.chr 'B'))
            (.seq (.cls isBinDigit) (tailDigitsOpt isBinDigitQ isBinDigit))))
          (.seq
            (.alt
              (.seq (.cls isDigit) (.seq (tailDigitsOpt isDigitQ isDigit)
                (.seq (.opt (.chr '.')) (.seq (.star (.cls isDigit))
                  (tailDigitsOpt isDigitQ isDigit)))))
              (.seq (.chr '.') (.seq (.cls isDigit) (tailDigitsOpt isDigitQ isDigit))))
            (.opt (.seq (.alt (.chr 'e') (.chr 'E'))
              (.seq (.opt (.alt (.chr '+') (.chr '-')))
                (.seq (.cls isDigit) (tailDigitsOpt isDigitQ isDigit))))))))
      (.opt (wordsRE ["L", "l", "UL", "ul", "u", "U", "F", "f", "ll", "LL", "ull", "ULL"])))
    .wordb)

/-- `r'(%=?|\+[\+=]?|-[\-=]?|\*=?|/=?|&[&=]?|\|[\|=]?|\^=?|<<=?|>>=?|!=?|==?|<=?|>=?|[\?:;~\[\]\{\}\(\),\.])'` -/
def expr_symbol : RE :=
  altsRE
    [.seq (.chr '%') (.opt (.chr '=')),
     .seq (.chr '+') (.opt (.cls fun c => decide (c = '+') || decide (c = '='))),
     .seq (.chr '-') (.opt (.cls fun c => decide (c = '-') || decide (c = '='))),
     .seq (.chr '*') (.opt (.chr '=')),
     .seq (.chr '/') (.opt (.chr '=')),
     .seq (.chr '&') (.opt (.cls fun c => decide (c = '&') || decide (c = '='))),
     .seq (.chr '|') (.opt (.cls fun c => decide (c = '|') || decide (c = '='))),
     .seq (.chr '^') (.opt (.chr '=')),
     .seq (.chr '<') (.seq (.chr '<') (.opt (.chr '='))),
     .seq (.chr '>') (.seq (.chr '>') (.opt (.chr '='))),
     .seq (.chr '!') (.opt (.chr '=')),
     .seq (.chr '=') (.opt (.chr '=')),
     .seq (.chr '<') (.opt (.chr '=')),
     .seq (.chr '>') (.opt (.chr '=')),
     .cls fun c => c ∈ ['?', ':', ';', '~', '[', ']', '{', '}', '(', ')', ',', '.']]

/-- `r'(?!\\)(")(([^"]|\\")*)(")'` -/
def expr_string : RE :=
  .seq (.look false (.chr '\\'))
    (.seq (.chr '"')
      (.seq (.star (.alt (.cls fun c => decide (c ≠ '"'))
        (.seq (.chr '\\') (.chr '"'))))
        (.chr '"')))

/-- `r"(?!\\)(')(\\['\\]|.)(')"`; `.` matches anything but a newline -/
def expr_char : RE :=
  .seq (.look false (.chr '\\'))
    (.seq (.chr '\'')
      (.seq (.alt (.seq (.chr '\\') (.cls fun c => decide (c = '\'') || decide (c = '\\')))
        (.cls fun c => decide (c ≠ '\n')))
        (.chr '\'')))

/-- `r'(NULL|TRUE|FALSE|true|false)'` (no word boundaries) -/
def expr_constants : RE :=
  wordsRE ["NULL", "TRUE", "FALSE", "true", "false"]

/-! ### The replacement templates

    Markers are `'\032'` (= chr 26, here `MK`) followed by one code
    byte; `'\032\032'` closes a group and `'\032\031'` closes an
    exclusive group. -/

def MK : Char := Char.ofNat 26

/-- `'\032\012\\1'` (comment open, colour group 10) -/
def tmplCommentOpen (w : List Char) : List Char :=
  [MK, Char.ofNat 10] ++ w

/-- `'\\1\032\031'` (comment close: exclusive-close after the match) -/
def tmplCommentClos (w : List Char) : List Char :=
  w ++ [MK, Char.ofNat 25]

/-- wrap the whole match in group `g` and a generic close:
    `'\032\0gg\\1\032\032'` -/
def tmplWrap (g : Nat) (w : List Char) : List Char :=
  [MK, Char.ofNat g] ++ w ++ [MK, MK]

/-- `'\032\007\\1\032\032\032\006\\2\032\031\032\007\\4\032\032'`: for
    the string pattern group 1 is the opening quote, group 2 the body
    and group 4 the closing quote, so `\1`/`\2`/`\4` are the first
    character, the middle, and the last character of the match.  The
    char-literal template has the same shape with `\3` the closing
    quote. -/
def tmplQuoted (w : List Char) : List Char :=
  [MK, Char.ofNat 7] ++ w.take 1 ++ [MK, MK] ++
  [MK, Char.ofNat 6] ++ (w.drop 1).dropLast ++ [MK, Char.ofNat 25] ++
  [MK, Char.ofNat 7] ++ (match w.getLast? with | some c => [c] | none => []) ++ [MK, MK]

/-- `decor_syntax(line)`: the ten substitution passes in source
    order. -/
def decorLine (line : List Char) : List Char :=
  let line := pysub expr_commentopen tmplCommentOpen line
  let line := pysub expr_commentclos tmplCommentClos line
  let line := pysub expr_string tmplQuoted line
  let line := pysub expr_char tmplQuoted line
  let line := pysub expr_symbol (tmplWrap 11) line
  let line := pysub expr_numeric (tmplWrap 8) line
  let line := pysub expr_keyword (tmplWrap 3) line
  let line := pysub expr_type (tmplWrap 5) line
  let line := pysub expr_constants (tmplWrap 9) line
  let line := pysub expr_function (tmplWrap 4) line
  line

/-! ### The renderer's marker interpretation
    (render, etc/djacarta.py lines 230-268) -/

/-- The inner `while j < coltextlen` loop of `render`: walk the
    decorated text, skipping marker pairs while updating the exclusive
    flag and active group, and record for every painted character the
    colour pair active at that moment (pair 1 is the default).  The
    code byte is read with `int.from_bytes(bytes(c,'utf-8'),'little')`,
    which is `Char.toNat` for the ASCII-range codes the tokenizer
    emits. -/
def renderLoop : List Char → Bool → Nat → Nat → List (Char × Nat)
  | [], _, _, _ => []
  | [c], _, _, cur => [(c, cur)]
  | c :: d :: rest, e, a, cur =>
    if c = MK then
      let grp := d.toNat
      if ¬ e ∧ grp = 26 ∧ a > 0 then renderLoop rest e 0 1
      else if grp = 25 then renderLoop rest false 0 1
      else if ¬ e then renderLoop rest (if grp = 10 ∨ grp = 6 then true else e) grp grp
      else renderLoop rest e a cur
    else (c, cur) :: renderLoop (d :: rest) e a cur

/-- Tokenize a line and interpret the marker stream exactly as the
    renderer does, starting outside any group. -/
def renderColors (line : List Char) : List (Char × Nat) :=
  renderLoop (decorLine line) false 0 1

/-! ## Claim C9 -/

/-- The claim's example line. -/
def c9line : List Char := "/* a */ int x = 1;".toList

/-- C9 counterexample: read as stated — an exclusive comment span, a
    type span, default-coloured text, a numeric span, and nothing else
    non-default — the claim gives `=` and `;` the default colour
    (pair 1).  The tokenizer's symbol pass wraps them in colour group
    11 and the renderer paints them with it. -/
theorem C9_symbol_spans_not_default :
    renderColors c9line ≠
      [('/', 10), ('*', 10), (' ', 10), ('a', 10), (' ', 10), ('*', 10), ('/', 10),
       (' ', 1), ('i', 5), ('n', 5), ('t', 5), (' ', 1), ('x', 1), (' ', 1), ('=', 1),
       (' ', 1), ('1', 8), (';', 1)] ∧
    (renderColors c9line)[14]? = some ('=', 11) ∧
    (renderColors c9line)[17]? = some (';', 11) ∧ (11 : Nat) ≠ 1 :=
  ⟨by decide, by decide, by decide, by decide⟩

/-- C9 as amended: tokenizing `/* a */ int x = 1;` and rendering the
    marker stream yields, in order: an exclusive comment span covering
    exactly `/* a */` (group 10 — inside it the symbol markers the
    later passes inserted are skipped and no other group is applied),
    a type-keyword span `int` (group 5), default text in which `=`
    additionally carries a symbol span (group 11), a numeric-literal
    span `1` (group 8), and a final symbol span on `;` (group 11). -/
theorem C9_amended :
    renderColors c9line =
      [('/', 10), ('*', 10), (' ', 10), ('a', 10), (' ', 10), ('*', 10), ('/', 10),
       (' ', 1), ('i', 5), ('n', 5), ('t', 5), (' ', 1), ('x', 1), (' ', 1), ('=', 11),
       (' ', 1), ('1', 8), (';', 11)] := by
  decide

/-! ## Claim C10: the tokenizer only interleaves marker pairs

    A decorated line is an interleaving of visible characters and
    two-byte marker pairs: `MK` followed by one code byte.  The code
    bytes the ten templates emit are chr 3-11, chr 25 and chr 26 (the
    second byte of the `'\032\032'` close pair is `MK` itself).
    `strip` removes, left to right, every `MK` together with the byte
    after it; `Aligned` says every `MK` heads a complete pair whose
    code byte is one the templates emit. -/

def codeChars : List Char :=
  [Char.ofNat 3, Char.ofNat 4, Char.ofNat 5, Char.ofNat 6, Char.ofNat 7, Char.ofNat 8,
   Char.ofNat 9, Char.ofNat 10, Char.ofNat 11, Char.ofNat 25, Char.ofNat 26]

inductive Aligned : List Char → Prop
  | nil : Aligned []
  | ch {c : Char} {s : List Char} : c ≠ MK → Aligned s → Aligned (c :: s)
  | pair {c : Char} {s : List Char} : c ∈ codeChars → Aligned s → Aligned (MK :: c :: s)

/-- Remove, left to right, every marker byte together with the single
    byte that follows it. -/
def strip : List Char → List Char
  | [] => []
  | [c] => if c = MK then [] else [c]
  | c :: d :: rest => if c = MK then strip rest else c :: strip (d :: rest)

theorem strip_cons_ne {c : Char} (hc : c ≠ MK) (s : List Char) :
    strip (c :: s) = c :: strip s := by
  cases s <;> simp [strip, hc]

theorem strip_pair (c : Char) (s : List Char) : strip (MK :: c :: s) = strip s := by
  simp [strip]

theorem strip_append {a : List Char} (ha : Aligned a) (b : List Char) :
    strip (a ++ b) = strip a ++ strip b := by
  induction ha with
  | nil => simp [strip]
  | ch hc _ ih =>
    rw [List.cons_append, strip_cons_ne hc, strip_cons_ne hc, ih, List.cons_append]
  | pair hc _ ih =>
    rw [List.cons_append, List.cons_append, strip_pair, strip_pair, ih]

theorem aligned_append {a : List Char} (ha : Aligned a) {b : List Char} (hb : Aligned b) :
    Aligned (a ++ b) := by
  induction ha with
  | nil => exact hb
  | ch hc _ ih => exact .ch hc ih
  | pair hc _ ih => exact .pair hc ih

/-- An aligned list splits at any point whose left part does not end in
    a dangling marker byte. -/
theorem aligned_split : ∀ (a b : List Char), Aligned (a ++ b) →
    a.getLast? ≠ some MK → Aligned a ∧ Aligned b
  | [], _, h, _ => ⟨.nil, h⟩
  | [c], b, h, hl => by
    cases h with
    | ch hc ht => exact ⟨.ch hc .nil, ht⟩
    | pair hc ht => exact absurd (show ([MK] : List Char).getLast? = some MK from rfl) hl
  | c :: d :: rest, b, h, hl => by
    cases h with
    | ch hc ht =>
      have ih := aligned_split (d :: rest) b ht (by
        rwa [List.getLast?_cons_cons] at hl)
      exact ⟨.ch hc ih.1, ih.2⟩
    | pair hc ht =>
      have ih := aligned_split rest b ht (by
        cases rest with
        | nil => simp
        | cons x xs =>
          rw [List.getLast?_cons_cons, List.getLast?_cons_cons] at hl
          exact hl)
      exact ⟨.pair hc ih.1, ih.2⟩

/-- An aligned list also splits wherever the right part does not start
    with a code byte (no pair can straddle the cut). -/
theorem aligned_split_r : ∀ (a b : List Char), Aligned (a ++ b) →
    (∀ c, b.head? = some c → c ∉ codeChars) → Aligned a ∧ Aligned b
  | [], _, h, _ => ⟨.nil, h⟩
  | [c], b, h, hb => by
    cases h with
    | ch hc ht => exact ⟨.ch hc .nil, ht⟩
    | pair hc ht => exact absurd hc (hb _ rfl)
  | c :: d :: rest, b, h, hb => by
    cases h with
    | ch hc ht =>
      have ih := aligned_split_r (d :: rest) b ht hb
      exact ⟨.ch hc ih.1, ih.2⟩
    | pair hc ht =>
      have ih := aligned_split_r rest b ht hb
      exact ⟨.pair hc ih.1, ih.2⟩

theorem aligned_of_no_mk : ∀ (l : List Char), (∀ c ∈ l, c ≠ MK) → Aligned l
  | [], _ => .nil
  | c :: rest, h =>
    .ch (h c (List.mem_cons_self c rest)) (aligned_of_no_mk rest fun d hd => h d (List.mem_cons_of_mem c hd))

theorem strip_of_no_mk : ∀ (l : List Char), (∀ c ∈ l, c ≠ MK) → strip l = l
  | [], _ => rfl
  | c :: rest, h => by
    rw [strip_cons_ne (h c (List.mem_cons_self c rest)),
      strip_of_no_mk rest fun d hd => h d (List.mem_cons_of_mem c hd)]

/-! ### Conservative static approximations of a pattern

    `nullable r` is true if `r` might match the empty string;
    `canStart r c` if a non-empty match of `r` might begin with `c`;
    `canEnd r c` if it might end with `c`; `minLen r` bounds the
    length of any match from below.  Each is proved sound against
    `mrun` by induction on the fuel. -/

def nullable : RE → Bool
  | .eps => true
  | .chr _ => false
  | .cls _ => false
  | .seq a b => nullable a && nullable b
  | .alt a b => nullable a || nullable b
  | .star _ => true
  | .opt _ => true
  | .look _ _ => true
  | .wordb => true

def canStart : RE → Char → Bool
  | .eps, _ => false
  | .chr a, c => decide (c = a)
  | .cls p, c => p c
  | .seq a b, c => canStart a c || (nullable a && canStart b c)
  | .alt a b, c => canStart a c || canStart b c
  | .star a, c => canStart a c
  | .opt a, c => canStart a c
  | .look _ _, _ => false
  | .wordb, _ => false

def canEnd : RE → Char → Bool
  | .eps, _ => false
  | .chr a, c => decide (c = a)
  | .cls p, c => p c
  | .seq a b, c => canEnd b c || (nullable b && canEnd a c)
  | .alt a b, c => canEnd a c || canEnd b c
  | .star a, c => canEnd a c
  | .opt a, c => canEnd a c
  | .look _ _, _ => false
  | .wordb, _ => false

def minLen : RE → Nat
  | .eps => 0
  | .chr _ => 1
  | .cls _ => 1
  | .seq a b => minLen a + minLen b
  | .alt a b => min (minLen a) (minLen b)
  | .star _ => 0
  | .opt _ => 0
  | .look _ _ => 0
  | .wordb => 0

theorem getLast?_append_right {β : Type} (A : List β) {B : List β} (hB : B ≠ []) :
    (A ++ B).getLast? = B.getLast? := by
  induction A with
  | nil => rfl
  | cons x xs ih =>
    cases B with
    | nil => exact absurd rfl hB
    | cons b bs =>
      rw [List.cons_append]
      cases xs with
      | nil => rw [List.nil_append, List.getLast?_cons_cons]
      | cons y ys => rw [List.cons_append, List.getLast?_cons_cons, ← List.cons_append, ih]

/-- Every candidate consumes at most the whole input and leaves exactly
    the dropped suffix. -/
theorem mrun_mem_drop : ∀ (fuel : Nat) (r : RE) (prev : Option Char) (s : List Char)
    (n : Nat) (rest : List Char), (n, rest) ∈ mrun fuel r prev s →
    n ≤ s.length ∧ rest = s.drop n := by
  intro fuel
  induction fuel with
  | zero => intro r prev s n rest h; simp [mrun] at h
  | succ fuel ih =>
    intro r prev s n rest h
    cases r with
    | eps =>
      simp only [mrun, List.mem_singleton, Prod.mk.injEq] at h
      obtain ⟨rfl, rfl⟩ := h
      simp
    | chr c =>
      cases s with
      | nil => simp [mrun] at h
      | cons x xs =>
        simp only [mrun] at h
        split at h
        · simp only [List.mem_singleton, Prod.mk.injEq] at h
          obtain ⟨rfl, rfl⟩ := h
          simp
        · simp at h
    | cls p =>
      cases s with
      | nil => simp [mrun] at h
      | cons x xs =>
        simp only [mrun] at h
        split at h
        · simp only [List.mem_singleton, Prod.mk.injEq] at h
          obtain ⟨rfl, rfl⟩ := h
          simp
        · simp at h
    | seq a b =>
      simp only [mrun, List.mem_flatMap, List.mem_map] at h
      obtain ⟨⟨n1, r1⟩, h1, ⟨n2, r2⟩, h2, heq⟩ := h
      obtain ⟨hl1, rfl⟩ := ih a prev s n1 r1 h1
      obtain ⟨hl2, rfl⟩ := ih b _ _ n2 r2 h2
      cases heq
      rw [List.length_drop] at hl2
      refine ⟨by omega, ?_⟩
      rw [List.drop_drop]
    | alt a b =>
      simp only [mrun, List.mem_append] at h
      rcases h with h | h
      · exact ih a prev s n rest h
      · exact ih b prev s n rest h
    | star a =>
      simp only [mrun, List.mem_append, List.mem_flatMap, List.mem_singleton] at h
      rcases h with ⟨⟨n1, r1⟩, h1, h2⟩ | h
      · split at h2
        · simp at h2
        · simp only [List.mem_map] at h2
          obtain ⟨⟨n2, r2⟩, h2, heq⟩ := h2
          obtain ⟨hl1, rfl⟩ := ih a prev s n1 r1 h1
          obtain ⟨hl2, rfl⟩ := ih (.star a) _ _ n2 r2 h2
          cases heq
          rw [List.length_drop] at hl2
          refine ⟨by omega, ?_⟩
          rw [List.drop_drop]
      · cases h
        simp
    | opt a =>
      simp only [mrun, List.mem_append, List.mem_singleton] at h
      rcases h with h | h
      · exact ih a prev s n rest h
      · cases h
        simp
    | look positive a =>
      simp only [mrun] at h
      split at h
      · simp at h
      · simp only [List.mem_singleton, Prod.mk.injEq] at h
        obtain ⟨rfl, rfl⟩ := h
        simp
    | wordb =>
      simp only [mrun] at h
      split at h
      · simp only [List.mem_singleton, Prod.mk.injEq] at h
        obtain ⟨rfl, rfl⟩ := h
        simp
      · simp at h

/-- An empty-length candidate certifies nullability. -/
theorem mrun_mem_nullable : ∀ (fuel : Nat) (r : RE) (prev : Option Char) (s : List Char)
    (rest : List Char), (0, rest) ∈ mrun fuel r prev s → nullable r = true := by
  intro fuel
  induction fuel with
  | zero => intro r prev s rest h; simp [mrun] at h
  | succ fuel ih =>
    intro r prev s rest h
    cases r with
    | eps => rfl
    | chr c =>
      cases s with
      | nil => simp [mrun] at h
      | cons x xs =>
        simp only [mrun] at h
        split at h
        · simp at h
        · simp at h
    | cls p =>
      cases s with
      | nil => simp [mrun] at h
      | cons x xs =>
        simp only [mrun] at h
        split at h
        · simp at h
        · simp at h
    | seq a b =>
      simp only [mrun, List.mem_flatMap, List.mem_map] at h
      obtain ⟨⟨n1, r1⟩, h1, ⟨n2, r2⟩, h2, heq⟩ := h
      have hn : n1 + n2 = 0 := congrArg Prod.fst heq
      obtain ⟨rfl, rfl⟩ : n1 = 0 ∧ n2 = 0 := by omega
      simp only [nullable, Bool.and_eq_true]
      exact ⟨ih a prev s r1 h1, ih b _ _ r2 h2⟩
    | alt a b =>
      simp only [mrun, List.mem_append] at h
      simp only [nullable, Bool.or_eq_true]
      rcases h with h | h
      · exact Or.inl (ih a prev s rest h)
      · exact Or.inr (ih b prev s rest h)
    | star a => rfl
    | opt a => rfl
    | look positive a => rfl
    | wordb => rfl

/-- A non-empty candidate starts at a character the pattern can
    start with. -/
theorem mrun_mem_canStart : ∀ (fuel : Nat) (r : RE) (prev : Option Char) (s : List Char)
    (n : Nat) (rest : List Char), (n, rest) ∈ mrun fuel r prev s → n ≠ 0 →
    ∃ c s', s = c :: s' ∧ canStart r c = true := by
  intro fuel
  induction fuel with
  | zero => intro r prev s n rest h _; simp [mrun] at h
  | succ fuel ih =>
    intro r prev s n rest h hn
    cases r with
    | eps =>
      simp only [mrun, List.mem_singleton, Prod.mk.injEq] at h
      exact absurd h.1 hn
    | chr c =>
      cases s with
      | nil => simp [mrun] at h
      | cons x xs =>
        simp only [mrun] at h
        split at h
        · next hx => exact ⟨x, xs, rfl, by simp [canStart, hx]⟩
        · simp at h
    | cls p =>
      cases s with
      | nil => simp [mrun] at h
      | cons x xs =>
        simp only [mrun] at h
        split at h
        · next hx => exact ⟨x, xs, rfl, by simp [canStart, hx]⟩
        · simp at h
    | seq a b =>
      simp only [mrun, List.mem_flatMap, List.mem_map] at h
      obtain ⟨⟨n1, r1⟩, h1, ⟨n2, r2⟩, h2, heq⟩ := h
      have hn12 : n1 + n2 = n := congrArg Prod.fst heq
      by_cases h10 : n1 = 0
      · subst h10
        have hnul := mrun_mem_nullable fuel a prev s r1 h1
        have hr1 : r1 = s := by
          have := mrun_mem_drop fuel a prev s 0 r1 h1
          simpa using this.2
        rw [hr1] at h2
        obtain ⟨c, s', hs, hb⟩ := ih b _ s n2 r2 h2 (by omega)
        exact ⟨c, s', hs, by simp [canStart, hnul, hb]⟩
      · obtain ⟨c, s', rfl, ha⟩ := ih a prev s n1 r1 h1 h10
        exact ⟨c, s', rfl, by simp [canStart, ha]⟩
    | alt a b =>
      simp only [mrun, List.mem_append] at h
      rcases h with h | h
      · obtain ⟨c, s', rfl, ha⟩ := ih a prev s n rest h hn
        exact ⟨c, s', rfl, by simp [canStart, ha]⟩
      · obtain ⟨c, s', rfl, hb⟩ := ih b prev s n rest h hn
        exact ⟨c, s', rfl, by simp [canStart, hb]⟩
    | star a =>
      simp only [mrun, List.mem_append, List.mem_flatMap, List.mem_singleton] at h
      rcases h with ⟨⟨n1, r1⟩, h1, h2⟩ | h
      · split at h2
        · simp at h2
        · next h10 =>
          obtain ⟨c, s', rfl, ha⟩ := ih a prev s n1 r1 h1 h10
          exact ⟨c, s', rfl, ha⟩
      · cases h
        exact absurd rfl hn
    | opt a =>
      simp only [mrun, List.mem_append, List.mem_singleton] at h
      rcases h with h | h
      · exact ih a prev s n rest h hn
      · cases h
        exact absurd rfl hn
    | look positive a =>
      simp only [mrun] at h
      split at h
      · simp at h
      · simp only [List.mem_singleton, Prod.mk.injEq] at h
        exact absurd h.1 hn
    | wordb =>
      simp only [mrun] at h
      split at h
      · simp only [List.mem_singleton, Prod.mk.injEq] at h
        exact absurd h.1 hn
      · simp at h

/-- Every candidate is at least as long as the pattern's minimum
    length. -/
theorem mrun_mem_minLen : ∀ (fuel : Nat) (r : RE) (prev : Option Char) (s : List Char)
    (n : Nat) (rest : List Char), (n, rest) ∈ mrun fuel r prev s → minLen r ≤ n := by
  intro fuel
  induction fuel with
  | zero => intro r prev s n rest h; simp [mrun] at h
  | succ fuel ih =>
    intro r prev s n rest h
    cases r with
    | eps => exact Nat.zero_le n
    | chr c =>
      cases s with
      | nil => simp [mrun] at h
      | cons x xs =>
        simp only [mrun] at h
        split at h
        · simp only [List.mem_singleton, Prod.mk.injEq] at h
          obtain ⟨rfl, rfl⟩ := h
          exact Nat.le_refl 1
        · simp at h
    | cls p =>
      cases s with
      | nil => simp [mrun] at h
      | cons x xs =>
        simp only [mrun] at h
        split at h
        · simp only [List.mem_singleton, Prod.mk.injEq] at h
          obtain ⟨rfl, rfl⟩ := h
          exact Nat.le_refl 1
        · simp at h
    | seq a b =>
      simp only [mrun, List.mem_flatMap, List.mem_map] at h
      obtain ⟨⟨n1, r1⟩, h1, ⟨n2, r2⟩, h2, heq⟩ := h
      have hn12 : n1 + n2 = n := congrArg Prod.fst heq
      have ha := ih a prev s n1 r1 h1
      have hb := ih b _ _ n2 r2 h2
      show minLen a + minLen b ≤ n
      omega
    | alt a b =>
      simp only [mrun, List.mem_append] at h
      show min (minLen a) (minLen b) ≤ n
      rcases h with h | h
      · exact le_trans (Nat.min_le_left _ _) (ih a prev s n rest h)
      · exact le_trans (Nat.min_le_right _ _) (ih b prev s n rest h)
    | star a => exact Nat.zero_le n
    | opt a => exact Nat.zero_le n
    | look positive a => exact Nat.zero_le n
    | wordb => exact Nat.zero_le n

/-- A non-empty candidate ends at a character the pattern can end
    with. -/
theorem mrun_mem_canEnd : ∀ (fuel : Nat) (r : RE) (prev : Option Char) (s : List Char)
    (n : Nat) (rest : List Char), (n, rest) ∈ mrun fuel r prev s → n ≠ 0 →
    ∃ c, (s.take n).getLast? = some c ∧ canEnd r c = true := by
  intro fuel
  induction fuel with
  | zero => intro r prev s n rest h _; simp [mrun] at h
  | succ fuel ih =>
    intro r prev s n rest h hn
    cases r with
    | eps =>
      simp only [mrun, List.mem_singleton, Prod.mk.injEq] at h
      exact absurd h.1 hn
    | chr c =>
      cases s with
      | nil => simp [mrun] at h
      | cons x xs =>
        simp only [mrun] at h
        split at h
        · next hx =>
          simp only [List.mem_singleton, Prod.mk.injEq] at h
          obtain ⟨rfl, rfl⟩ := h
          exact ⟨x, by simp, by simp [canEnd, hx]⟩
        · simp at h
    | cls p =>
      cases s with
      | nil => simp [mrun] at h
      | cons x xs =>
        simp only [mrun] at h
        split at h
        · next hx =>
          simp only [List.mem_singleton, Prod.mk.injEq] at h
          obtain ⟨rfl, rfl⟩ := h
          exact ⟨x, by simp, by simp [canEnd, hx]⟩
        · simp at h
    | seq a b =>
      simp only [mrun, List.mem_flatMap, List.mem_map] at h
      obtain ⟨⟨n1, r1⟩, h1, ⟨n2, r2⟩, h2, heq⟩ := h
      dsimp only at h2
      have hn12 : n1 + n2 = n := congrArg Prod.fst heq
      obtain ⟨hl1, rfl⟩ := mrun_mem_drop fuel a prev s n1 r1 h1
      by_cases h20 : n2 = 0
      · subst h20
        have hnul := mrun_mem_nullable fuel b _ _ r2 h2
        obtain ⟨c, hlast, hce⟩ := ih a prev s n1 (s.drop n1) h1 (by omega)
        refine ⟨c, ?_, by simp [canEnd, hnul, hce]⟩
        rw [show n = n1 by omega]
        exact hlast
      · obtain ⟨hl2, _⟩ := mrun_mem_drop fuel b _ _ n2 r2 h2
        obtain ⟨c, hlast, hce⟩ := ih b _ _ n2 r2 h2 h20
        refine ⟨c, ?_, by simp [canEnd, hce]⟩
        rw [show n = n1 + n2 by omega, List.take_add,
          getLast?_append_right _ (by
            have : ((s.drop n1).take n2).length = n2 := by
              rw [List.length_take]
              omega
            intro hemp
            rw [hemp] at this
            simp at this
            omega)]
        exact hlast
    | alt a b =>
      simp only [mrun, List.mem_append] at h
      rcases h with h | h
      · obtain ⟨c, hlast, hce⟩ := ih a prev s n rest h hn
        exact ⟨c, hlast, by simp [canEnd, hce]⟩
      · obtain ⟨c, hlast, hce⟩ := ih b prev s n rest h hn
        exact ⟨c, hlast, by simp [canEnd, hce]⟩
    | star a =>
      simp only [mrun, List.mem_append, List.mem_flatMap, List.mem_singleton] at h
      rcases h with ⟨⟨n1, r1⟩, h1, h2⟩ | h
      · split at h2
        · simp at h2
        · next h10 =>
          simp only [List.mem_map] at h2
          obtain ⟨⟨n2, r2⟩, h2, heq⟩ := h2
          have hn12 : n1 + n2 = n := congrArg Prod.fst heq
          obtain ⟨hl1, rfl⟩ := mrun_mem_drop fuel a prev s n1 r1 h1
          by_cases h20 : n2 = 0
          · subst h20
            obtain ⟨c, hlast, hce⟩ := ih a prev s n1 (s.drop n1) h1 h10
            refine ⟨c, ?_, hce⟩
            rw [show n = n1 by omega]
            exact hlast
          · obtain ⟨hl2, _⟩ := mrun_mem_drop fuel (.star a) _ _ n2 r2 h2
            obtain ⟨c, hlast, hce⟩ := ih (.star a) _ _ n2 r2 h2 h20
            refine ⟨c, ?_, hce⟩
            rw [show n = n1 + n2 by omega, List.take_add,
              getLast?_append_right _ (by
                have : ((s.drop n1).take n2).length = n2 := by
                  rw [List.length_take]
                  omega
                intro hemp
                rw [hemp] at this
                simp at this
                omega)]
            exact hlast
      · cases h
        exact absurd rfl hn
    | opt a =>
      simp only [mrun, List.mem_append, List.mem_singleton] at h
      rcases h with h | h
      · exact ih a prev s n rest h hn
      · cases h
        exact absurd rfl hn
    | look positive a =>
      simp only [mrun] at h
      split at h
      · simp at h
      · simp only [List.mem_singleton, Prod.mk.injEq] at h
        exact absurd h.1 hn
    | wordb =>
      simp only [mrun] at h
      split at h
      · simp only [List.mem_singleton, Prod.mk.injEq] at h
        exact absurd h.1 hn
      · simp at h

theorem mem_of_head? {β : Type} {l : List β} {a : β} (h : l.head? = some a) : a ∈ l := by
  cases l with
  | nil => simp at h
  | cons x xs =>
    simp only [List.head?_cons, Option.some.injEq] at h
    rw [← h]
    exact List.mem_cons_self x xs

/-! ### The templates preserve the stripped text and keep alignment -/

theorem tmplCommentOpen_ok {w : List Char} (hw : Aligned w) :
    strip (tmplCommentOpen w) = strip w ∧ Aligned (tmplCommentOpen w) := by
  refine ⟨?_, ?_⟩
  · show strip (MK :: Char.ofNat 10 :: w) = strip w
    exact strip_pair _ w
  · exact .pair (by decide) hw

theorem strip_mk_mk : strip ([MK, MK] : List Char) = [] := by
  simp [strip]

theorem tmplCommentClos_ok {w : List Char} (hw : Aligned w) :
    strip (tmplCommentClos w) = strip w ∧ Aligned (tmplCommentClos w) := by
  refine ⟨?_, ?_⟩
  · show strip (w ++ [MK, Char.ofNat 25]) = strip w
    rw [strip_append hw]
    simp [strip]
  · exact aligned_append hw (.pair (by decide) .nil)

theorem tmplWrap_ok {g : Nat} (hg : Char.ofNat g ∈ codeChars) {w : List Char}
    (hw : Aligned w) :
    strip (tmplWrap g w) = strip w ∧ Aligned (tmplWrap g w) := by
  refine ⟨?_, ?_⟩
  · show strip (MK :: Char.ofNat g :: (w ++ [MK, MK])) = strip w
    rw [strip_pair, strip_append hw, strip_mk_mk, List.append_nil]
  · exact .pair hg (aligned_append hw (.pair (by decide) .nil))

theorem tmplQuoted_ok {w : List Char} {q1 q2 : Char} (hw : Aligned w)
    (hlen : 2 ≤ w.length) (h1 : w.head? = some q1) (h2 : w.getLast? = some q2)
    (hq1 : q1 ≠ MK) (hq2 : q2 ∉ codeChars) (hq2m : q2 ≠ MK) :
    strip (tmplQuoted w) = strip w ∧ Aligned (tmplQuoted w) := by
  cases w with
  | nil => simp at h1
  | cons c w' =>
    simp only [List.head?_cons, Option.some.injEq] at h1
    subst h1
    cases w' with
    | nil => simp at hlen
    | cons d w'' =>
      rw [List.getLast?_cons_cons] at h2
      have hne : (d :: w'') ≠ [] := List.cons_ne_nil d w''
      have hq2eq : (d :: w'').getLast hne = q2 := by
        rw [List.getLast?_eq_getLast _ hne, Option.some.injEq] at h2
        exact h2
      have hfull : (d :: w'').dropLast ++ [q2] = d :: w'' := by
        rw [← hq2eq]
        exact List.dropLast_append_getLast hne
      have ht : Aligned (d :: w'') := by
        cases hw with
        | ch _ ht => exact ht
        | pair hc _ => exact absurd rfl hq1
      have hsplit := aligned_split_r (d :: w'').dropLast [q2] (by rw [hfull]; exact ht)
        (by
          intro e he
          simp only [List.head?_cons, Option.some.injEq] at he
          rw [← he]
          exact hq2)
      have hmid := hsplit.1
      have htq : tmplQuoted (c :: d :: w'') =
          MK :: Char.ofNat 7 :: c :: MK :: MK :: MK :: Char.ofNat 6 ::
            ((d :: w'').dropLast ++
              (MK :: Char.ofNat 25 :: MK :: Char.ofNat 7 :: q2 :: MK :: MK :: [])) := by
        simp [tmplQuoted, List.getLast?_cons_cons, h2]
      have hR : strip (MK :: Char.ofNat 25 :: MK :: Char.ofNat 7 :: q2 :: MK :: MK :: []) =
          [q2] := by
        rw [strip_pair, strip_pair, strip_cons_ne hq2m, strip_mk_mk]
      refine ⟨?_, ?_⟩
      · rw [htq, strip_pair, strip_cons_ne hq1, strip_pair, strip_pair,
          strip_append hmid, hR, strip_cons_ne hq1]
        conv_rhs => rw [← hfull]
        rw [strip_append hmid, strip_cons_ne hq2m]
        simp [strip]
      · rw [htq]
        exact .pair (by decide) (.ch hq1 (.pair (by decide) (.pair (by decide)
          (aligned_append hmid (.pair (by decide) (.pair (by decide)
            (.ch hq2m (.pair (by decide) .nil))))))))

/-! ### One `re.sub` pass neither moves nor destroys visible text

    Provided the pattern cannot match emptily, cannot start at a marker
    or code byte, and cannot end at a marker byte, and the template
    preserves the stripped text of any match, a whole pass preserves
    the stripped text and alignment. -/

theorem subScan_strip (r : RE) (tmpl : List Char → List Char)
    (hnul : nullable r = false)
    (hstart : ∀ c, c = MK ∨ c ∈ codeChars → canStart r c = false)
    (hend : canEnd r MK = false)
    (htmpl : ∀ w, Aligned w →
      (∃ c s', w = c :: s' ∧ canStart r c = true) →
      (∃ c, w.getLast? = some c ∧ canEnd r c = true) →
      minLen r ≤ w.length →
      strip (tmpl w) = strip w ∧ Aligned (tmpl w)) :
    ∀ (fuel : Nat) (prev : Option Char) (s : List Char), Aligned s →
      strip (subScan fuel r tmpl prev s) = strip s ∧
        Aligned (subScan fuel r tmpl prev s) := by
  intro fuel
  induction fuel using Nat.strong_induction_on with
  | _ fuel ih =>
    intro prev s hs
    cases fuel with
    | zero => exact ⟨rfl, hs⟩
    | succ fuel =>
      cases hs with
      | nil => exact ⟨rfl, .nil⟩
      | ch hc ht =>
        rename_i c rest
        rcases hfind : reFind r prev (c :: rest) with _ | ⟨n, rest'⟩
        · simp only [subScan, hfind]
          obtain ⟨ihs, iha⟩ := ih fuel (Nat.lt_succ_self fuel) (some c) rest ht
          exact ⟨by rw [strip_cons_ne hc, strip_cons_ne hc, ihs], .ch hc iha⟩
        · have hmem : (n, rest') ∈
              mrun (((c :: rest).length + 4) * 64) r prev (c :: rest) :=
            mem_of_head? hfind
          have hn0 : n ≠ 0 := by
            intro h0
            subst h0
            have := mrun_mem_nullable _ r prev (c :: rest) rest' hmem
            rw [hnul] at this
            simp at this
          obtain ⟨hlen, hrest'⟩ := mrun_mem_drop _ r prev (c :: rest) n rest' hmem
          obtain ⟨c0, s0, heq0, hcs⟩ := mrun_mem_canStart _ r prev (c :: rest) n rest' hmem hn0
          obtain ⟨ce, hlast, hce⟩ := mrun_mem_canEnd _ r prev (c :: rest) n rest' hmem hn0
          have hml := mrun_mem_minLen _ r prev (c :: rest) n rest' hmem
          have hcsc : canStart r c = true := by
            rw [List.cons.injEq] at heq0
            rw [heq0.1]
            exact hcs
          have hcemk : ce ≠ MK := by
            intro h
            subst h
            rw [hend] at hce
            simp at hce
          have hws : (c :: rest).take n ++ rest' = c :: rest := by
            rw [hrest', List.take_append_drop]
          have hwal : Aligned ((c :: rest).take n) ∧ Aligned rest' := by
            refine aligned_split _ _ (by rw [hws]; exact .ch hc ht) ?_
            rw [hlast]
            intro h
            exact hcemk (Option.some.injEq _ _ ▸ h)
          obtain ⟨n', rfl⟩ : ∃ n', n = n' + 1 := ⟨n - 1, by omega⟩
          obtain ⟨hstripw, halw⟩ := htmpl ((c :: rest).take (n' + 1)) hwal.1
            ⟨c, rest.take n', by simp [List.take_succ_cons], hcsc⟩
            ⟨ce, hlast, hce⟩
            (by rw [List.length_take]; omega)
          obtain ⟨ihs, iha⟩ := ih fuel (Nat.lt_succ_self fuel) _ rest' hwal.2
          simp only [subScan, hfind, if_neg hn0]
          refine ⟨?_, aligned_append halw iha⟩
          rw [strip_append halw, hstripw, ihs, ← strip_append hwal.1, hws]
      | pair hcode ht =>
        rename_i d rest2
        rcases hfind : reFind r prev (MK :: d :: rest2) with _ | ⟨n, rest'⟩
        · simp only [subScan, hfind]
          cases fuel with
          | zero => exact ⟨rfl, .pair hcode ht⟩
          | succ fuel' =>
            rcases hfind2 : reFind r (some MK) (d :: rest2) with _ | ⟨n2, rest2'⟩
            · simp only [subScan, hfind2]
              obtain ⟨ihs, iha⟩ := ih fuel' (by omega) (some d) rest2 ht
              exact ⟨by rw [strip_pair, strip_pair, ihs], .pair hcode iha⟩
            · exfalso
              have hmem2 : (n2, rest2') ∈
                  mrun (((d :: rest2).length + 4) * 64) r (some MK) (d :: rest2) :=
                mem_of_head? hfind2
              have hn0 : n2 ≠ 0 := by
                intro h0
                subst h0
                have := mrun_mem_nullable _ r (some MK) (d :: rest2) rest2' hmem2
                rw [hnul] at this
                simp at this
              obtain ⟨c0, s0, heq0, hcs⟩ :=
                mrun_mem_canStart _ r (some MK) (d :: rest2) n2 rest2' hmem2 hn0
              have hc0 : c0 = d := by
                rw [List.cons.injEq] at heq0
                exact heq0.1.symm
              rw [hc0, hstart d (Or.inr hcode)] at hcs
              simp at hcs
        · exfalso
          have hmem : (n, rest') ∈
              mrun (((MK :: d :: rest2).length + 4) * 64) r prev (MK :: d :: rest2) :=
            mem_of_head? hfind
          have hn0 : n ≠ 0 := by
            intro h0
            subst h0
            have := mrun_mem_nullable _ r prev (MK :: d :: rest2) rest' hmem
            rw [hnul] at this
            simp at this
          obtain ⟨c0, s0, heq0, hcs⟩ :=
            mrun_mem_canStart _ r prev (MK :: d :: rest2) n rest' hmem hn0
          have hc0 : c0 = MK := by
            rw [List.cons.injEq] at heq0
            exact heq0.1.symm
          rw [hc0, hstart MK (Or.inl rfl)] at hcs
          simp at hcs

theorem pysub_strip (r : RE) (tmpl : List Char → List Char)
    (hnul : nullable r = false)
    (hstart : ∀ c, c = MK ∨ c ∈ codeChars → canStart r c = false)
    (hend : canEnd r MK = false)
    (htmpl : ∀ w, Aligned w →
      (∃ c s', w = c :: s' ∧ canStart r c = true) →
      (∃ c, w.getLast? = some c ∧ canEnd r c = true) →
      minLen r ≤ w.length →
      strip (tmpl w) = strip w ∧ Aligned (tmpl w)) :
    ∀ s, Aligned s → strip (pysub r tmpl s) = strip s ∧ Aligned (pysub r tmpl s) :=
  fun s hs => subScan_strip r tmpl hnul hstart hend htmpl (s.length + 1) none s hs

/-- Bridge from a decidable scan over the marker and code bytes to the
    `hstart` side condition of `subScan_strip`. -/
theorem canStart_codes_of_all {p : RE}
    (h : (MK :: codeChars).all (fun c => ! canStart p c) = true) :
    ∀ c, c = MK ∨ c ∈ codeChars → canStart p c = false := by
  intro c hc
  have hmem : c ∈ MK :: codeChars := by
    rcases hc with rfl | hc
    · exact List.mem_cons_self _ _
    · exact List.mem_cons_of_mem _ hc
  have := List.all_eq_true.mp h c hmem
  simpa using this

/-- A non-empty candidate of the string pattern starts with `"`. -/
theorem canStart_string {c : Char} (h : canStart expr_string c = true) : c = '"' := by
  simp [expr_string, canStart, nullable] at h
  exact h

/-- Any candidate of the string pattern ends with `"`. -/
theorem canEnd_string {c : Char} (h : canEnd expr_string c = true) : c = '"' := by
  simp [expr_string, canEnd, nullable] at h
  exact h

/-- A non-empty candidate of the char pattern starts with `'`. -/
theorem canStart_char {c : Char} (h : canStart expr_char c = true) : c = '\'' := by
  simp [expr_char, canStart, nullable] at h
  exact h

/-- Any candidate of the char pattern ends with `'`. -/
theorem canEnd_char {c : Char} (h : canEnd expr_char c = true) : c = '\'' := by
  simp [expr_char, canEnd, nullable] at h
  exact h

/-- The `htmpl` side condition for the string pattern with the quoted
    template. -/
theorem htmpl_string : ∀ w, Aligned w →
    (∃ c s', w = c :: s' ∧ canStart expr_string c = true) →
    (∃ c, w.getLast? = some c ∧ canEnd expr_string c = true) →
    minLen expr_string ≤ w.length →
    strip (tmplQuoted w) = strip w ∧ Aligned (tmplQuoted w) := by
  intro w hw hst hen hml
  obtain ⟨c, s', rfl, hcs⟩ := hst
  obtain ⟨q2, hlast, hce⟩ := hen
  have hc : c = '"' := canStart_string hcs
  have hq : q2 = '"' := canEnd_string hce
  refine tmplQuoted_ok hw ?_ (List.head?_cons) hlast ?_ ?_ ?_
  · exact le_trans (show (2 : Nat) ≤ minLen expr_string from by decide) hml
  · rw [hc]; decide
  · rw [hq]; decide
  · rw [hq]; decide

/-- The `htmpl` side condition for the char pattern with the quoted
    template. -/
theorem htmpl_char : ∀ w, Aligned w →
    (∃ c s', w = c :: s' ∧ canStart expr_char c = true) →
    (∃ c, w.getLast? = some c ∧ canEnd expr_char c = true) →
    minLen expr_char ≤ w.length →
    strip (tmplQuoted w) = strip w ∧ Aligned (tmplQuoted w) := by
  intro w hw hst hen hml
  obtain ⟨c, s', rfl, hcs⟩ := hst
  obtain ⟨q2, hlast, hce⟩ := hen
  have hc : c = '\'' := canStart_char hcs
  have hq : q2 = '\'' := canEnd_char hce
  refine tmplQuoted_ok hw ?_ (List.head?_cons) hlast ?_ ?_ ?_
  · exact le_trans (show (2 : Nat) ≤ minLen expr_char from by decide) hml
  · rw [hc]; decide
  · rw [hq]; decide
  · rw [hq]; decide

/-- C10: for every input line with no occurrence of the marker byte
    chr 26, removing from `decor_syntax(line)`, left to right, every
    marker byte together with the single code byte after it yields
    exactly the original line — the tokenizer only interleaves
    zero-width two-byte marker pairs and never drops, duplicates,
    alters, or reorders any visible character. -/
theorem C10_tokenizer_preserves_text (line : List Char) (h : MK ∉ line) :
    strip (decorLine line) = line := by
  have hal : Aligned line := aligned_of_no_mk line fun c hc he => h (he ▸ hc)
  have h0 : strip line = line := strip_of_no_mk line fun c hc he => h (he ▸ hc)
  obtain ⟨e1, a1⟩ := pysub_strip expr_commentopen tmplCommentOpen (by decide)
    (canStart_codes_of_all (by decide)) (by decide)
    (fun w hw _ _ _ => tmplCommentOpen_ok hw) line hal
  obtain ⟨e2, a2⟩ := pysub_strip expr_commentclos tmplCommentClos (by decide)
    (canStart_codes_of_all (by decide)) (by decide)
    (fun w hw _ _ _ => tmplCommentClos_ok hw) _ a1
  obtain ⟨e3, a3⟩ := pysub_strip expr_string tmplQuoted (by decide)
    (canStart_codes_of_all (by decide)) (by decide) htmpl_string _ a2
  obtain ⟨e4, a4⟩ := pysub_strip expr_char tmplQuoted (by decide)
    (canStart_codes_of_all (by decide)) (by decide) htmpl_char _ a3
  obtain ⟨e5, a5⟩ := pysub_strip expr_symbol (tmplWrap 11) (by decide)
    (canStart_codes_of_all (by decide)) (by decide)
    (fun w hw _ _ _ => tmplWrap_ok (by decide) hw) _ a4
  obtain ⟨e6, a6⟩ := pysub_strip expr_numeric (tmplWrap 8) (by decide)
    (canStart_codes_of_all (by decide)) (by decide)
    (fun w hw _ _ _ => tmplWrap_ok (by decide) hw) _ a5
  obtain ⟨e7, a7⟩ := pysub_strip expr_keyword (tmplWrap 3) (by decide)
    (canStart_codes_of_all (by decide)) (by decide)
    (fun w hw _ _ _ => tmplWrap_ok (by decide) hw) _ a6
  obtain ⟨e8, a8⟩ := pysub_strip expr_type (tmplWrap 5) (by decide)
    (canStart_codes_of_all (by decide)) (by decide)
    (fun w hw _ _ _ => tmplWrap_ok (by decide) hw) _ a7
  obtain ⟨e9, a9⟩ := pysub_strip expr_constants (tmplWrap 9) (by decide)
    (canStart_codes_of_all (by decide)) (by decide)
    (fun w hw _ _ _ => tmplWrap_ok (by decide) hw) _ a8
  obtain ⟨e10, _⟩ := pysub_strip expr_function (tmplWrap 4) (by decide)
    (canStart_codes_of_all (by decide)) (by decide)
    (fun w hw _ _ _ => tmplWrap_ok (by decide) hw) _ a9
  show strip (pysub expr_function (tmplWrap 4) (pysub expr_constants (tmplWrap 9)
    (pysub expr_type (tmplWrap 5) (pysub expr_keyword (tmplWrap 3)
    (pysub expr_numeric (tmplWrap 8) (pysub expr_symbol (tmplWrap 11)
    (pysub expr_char tmplQuoted (pysub expr_string tmplQuoted
    (pysub expr_commentclos tmplCommentClos
    (pysub expr_commentopen tmplCommentOpen line)))))))))) = line
  rw [e10, e9, e8, e7, e6, e5, e4, e3, e2, e1, h0]

/-- Witness for C10 at a concrete line without marker bytes. -/
theorem C10_tokenizer_preserves_text_witness :
    (MK ∉ ("int x;".toList : List Char)) ∧
      strip (decorLine "int x;".toList) = "int x;".toList :=
  ⟨by decide, C10_tokenizer_preserves_text _ (by decide)⟩

end Djacarta
